import Mathlib

/-!
Verification development for the `kg` knowledge-graph extraction pipeline.

Python strings are modelled as `List Char`, machine integers as `Nat`,
floating-point confidence values as `Rat` (the source only compares and
copies them), JSON values as an inductive type, and fallible network
calls as explicit outcome oracles.  Each definition is a direct
translation of the Python function named in its doc comment.
-/

/-- Python strings are modelled as lists of characters. -/
abbrev Str := List Char

/-- Python regex `\s` for the ASCII range (`str.split()` / `re.split` whitespace).
Unicode-only whitespace characters are not used by any input modelled here. -/
def isPySpace (c : Char) : Bool :=
  c == ' ' || c == '\t' || c == '\n' || c == '\r' || c == '\x0b' || c == '\x0c'

/-- Python `s[-n:]`: the last `n` characters of `s` (all of `s` when shorter). -/
def takeLastN (n : Nat) (l : Str) : Str := l.drop (l.length - n)

/-- Does the sentence accumulator (stored reversed) end in `.`, `!` or `?`  —
the lookbehind `(?<=[.!?])` of `re.split(r'(?<=[.!?])\s+', paragraph)`. -/
def headIsPunct (acc : Str) : Bool :=
  match acc with
  | p :: _ => p == '.' || p == '!' || p == '?'
  | [] => false

/-- Worker for `splitSentences`: scans the paragraph, splitting at every
maximal whitespace run that directly follows `.`, `!` or `?`, exactly as
`re.split(r'(?<=[.!?])\s+', paragraph)` does (the matched whitespace is
discarded; a trailing separator yields a trailing empty sentence).
`acc` holds the current sentence in reverse. -/
def sentSplitGo (acc : Str) : Nat → Str → List Str
  | _, [] => [acc.reverse]
  | 0, _ :: _ => [acc.reverse]
  | fuel + 1, c :: rest =>
    if headIsPunct acc && isPySpace c then
      acc.reverse :: sentSplitGo [] fuel (rest.dropWhile isPySpace)
    else
      sentSplitGo (c :: acc) fuel rest

/-- `re.split(r'(?<=[.!?])\s+', paragraph)` from `split_text_into_chunks`.
The scan consumes at least one character per step, so `p.length` fuel is
always enough; the fuel only makes the recursion structural. -/
def splitSentences (p : Str) : List Str := sentSplitGo [] p.length p

/-- The forced fixed-width split of a single over-long sentence:
`for i in range(0, len(sentence), step): chunks.append(sentence[i:i+max])`
with `step = max_chunk_size - overlap_size`.  (In Python a zero step raises
`ValueError`; that case is outside the spec's domain `max > overlap` and is
modelled as producing no chunks.  The fuel argument only bounds the
recursion depth; the wrapper below supplies enough for the whole input.) -/
def forceSplitF (step maxCS : Nat) : Nat → Str → List Str
  | _, [] => []
  | 0, _ :: _ => []
  | fuel + 1, c :: rest =>
    if step = 0 then []
    else (c :: rest).take maxCS :: forceSplitF step maxCS fuel ((c :: rest).drop step)

/-- The forced split at fuel `s.length`, which is always sufficient since a
positive step shortens the remainder at every iteration. -/
def forceSplit (step maxCS : Nat) (s : Str) : List Str :=
  forceSplitF step maxCS s.length s

/-- One iteration of the sentence-packing loop of `split_text_into_chunks`
(state = `(chunks, temp_chunk)`).  Note that after force-splitting an
over-long sentence the source does **not** reset `temp_chunk`, which this
translation preserves. -/
def sentStep (maxCS ov : Nat) (st : List Str × Str) (s : Str) : List Str × Str :=
  let (chunks, temp) := st
  if temp.length + s.length + 1 ≤ maxCS then
    (chunks, if temp.isEmpty then s else temp ++ ' ' :: s)
  else
    let chunks' := if temp.isEmpty then chunks else chunks ++ [temp]
    if maxCS < s.length then
      (chunks' ++ forceSplit (maxCS - ov) maxCS s, temp)
    else
      (chunks', s)

/-- One iteration of the paragraph loop of `split_text_into_chunks`
(state = `(chunks, current_chunk)`). -/
def paraStep (maxCS ov : Nat) (st : List Str × Str) (p : Str) : List Str × Str :=
  let (chunks, current) := st
  if maxCS < p.length then
    let chunks' := if current.isEmpty then chunks else chunks ++ [current]
    (splitSentences p).foldl (sentStep maxCS ov) (chunks', [])
  else if current.length + p.length + 2 ≤ maxCS then
    (chunks, if current.isEmpty then p else current ++ '\n' :: '\n' :: p)
  else
    (chunks ++ [current], p)

/-- The overlap pass over `chunks[1:]`: each later chunk is prefixed with the
last `overlap_size` characters of the *previous original* chunk.  (The
source's conditional `chunks[i-1][-ov:] if len(chunks[i-1]) > ov else
chunks[i-1]` equals `takeLastN ov` in both cases.) -/
def overlapGo (ov : Nat) (prev : Str) : List Str → List Str
  | [] => []
  | c :: rest => (takeLastN ov prev ++ c) :: overlapGo ov c rest

/-- The full overlap pass: first chunk unchanged. -/
def overlapPass (ov : Nat) : List Str → List Str
  | [] => []
  | c :: rest => c :: overlapGo ov c rest

/-- `TextProcessor.split_text_into_chunks(text)` with `max_chunk_size = maxCS`
and `overlap_size = ov`. -/
def split_text_into_chunks (maxCS ov : Nat) (text : Str) : List Str :=
  if text.length ≤ maxCS then [text]
  else
    let paragraphs := text.splitOn '\n'
    let st := paragraphs.foldl (paraStep maxCS ov) ([], [])
    let chunks := if st.2.isEmpty then st.1 else st.1 ++ [st.2]
    if 0 < ov ∧ 1 < chunks.length then overlapPass ov chunks else chunks

/-! ## `src/merge_kg_files.py` — `normalize_entity_text` and `merge_kg_data` -/

/-- Does `pat` occur at the head of `s`? (helper for `str.replace`). -/
def startsWithPat (pat s : Str) : Bool :=
  match pat, s with
  | [], _ => true
  | _ :: _, [] => false
  | p :: ps, c :: cs => p == c && startsWithPat ps cs

/-- Python `s.replace(pat, "")`: remove every (leftmost, non-overlapping)
occurrence of `pat`. -/
def removeAllF (pat : Str) : Nat → Str → Str
  | _, [] => []
  | 0, s => s
  | fuel + 1, c :: rest =>
    if !pat.isEmpty && startsWithPat pat (c :: rest) then
      removeAllF pat fuel ((c :: rest).drop pat.length)
    else c :: removeAllF pat fuel rest

/-- `s.replace(pat, "")` at fuel `s.length` (sufficient: each step consumes
at least one character of `s`). -/
def removeAll (pat : Str) (s : Str) : Str := removeAllF pat s.length s

/-- Python `s.split()` (no separator): the maximal whitespace-free runs. -/
def pyWordsF : Nat → Str → List Str
  | 0, _ => []
  | fuel + 1, s =>
    match s.dropWhile isPySpace with
    | [] => []
    | c :: rest =>
      (c :: rest.takeWhile (fun x => !isPySpace x)) ::
        pyWordsF fuel (rest.dropWhile (fun x => !isPySpace x))

/-- Python `s.split()` at fuel `s.length` (sufficient: each emitted word
consumes at least one character). -/
def pyWords (s : Str) : List Str := pyWordsF s.length s

/-- Python `s.strip()` over the modelled whitespace. -/
def pyStrip (s : Str) : Str :=
  ((s.dropWhile isPySpace).reverse.dropWhile isPySpace).reverse

/-- `any('一' <= char <= '鿿' for char in text)`. -/
def hasChinese (s : Str) : Bool :=
  s.any (fun c => 0x4e00 ≤ c.toNat && c.toNat ≤ 0x9fff)

/-- `normalize_entity_text(text)`.  A non-string (missing) value is mapped to
`""`, lower-casing (ASCII, via `Char.toLower`) is skipped when a CJK
character is present, the three affix removals run in source order, and
whitespace is canonicalised by `" ".join(text.split())` followed by
`.strip()`.  (The dead `bytes.decode` branches are unreachable for values
loaded from JSON and are not modelled.) -/
def normalize_entity_text (t : Option Str) : Str :=
  match t with
  | none => []
  | some text0 =>
    let text1 := if hasChinese text0 then text0 else text0.map Char.toLower
    let text2 := removeAll " gene".toList (removeAll " protein".toList
                   (removeAll "the ".toList text1))
    pyStrip (List.intercalate [' '] (pyWords text2))

/-- An entity record as read by the merger: only the `text` and
`occurrences` keys are consulted (both may be absent). -/
structure Entity where
  text : Option Str
  occurrences : Option Nat
deriving DecidableEq

/-- A relation endpoint: `{"text": ..., "type": ...}`, either key possibly absent. -/
structure ERef where
  text : Option Str
  type : Option Str
deriving DecidableEq

/-- A relation record as read by the merger and the graph builder: keys
`source`, `target`, `relation`, `confidence`, each possibly absent.  The
merger's endpoint-text rewrite (`new_relation["source"]["text"] =
source.get("text", "")`) assigns a key its own value through the shared
(shallow-copied) dict and is a no-op, so it has no counterpart here. -/
structure Relation where
  source : Option ERef
  target : Option ERef
  relation : Option Str
  confidence : Option Rat
deriving DecidableEq

/-- The `relation_type_map` table of `merge_kg_data`. -/
def relation_type_map : List (Str × Str) :=
  [("inhibits".toList, "抑制".toList),
   ("activates".toList, "激活".toList),
   ("treats".toList, "治疗".toList),
   ("causes".toList, "引起".toList),
   ("binds".toList, "结合".toList),
   ("expresses".toList, "表达".toList),
   ("regulates".toList, "调节".toList),
   ("phosphorylates".toList, "磷酸化".toList),
   ("degrades".toList, "降解".toList),
   ("extracted_from".toList, "提取自".toList),
   ("part_of".toList, "组分".toList),
   ("isolated_from".toList, "分离自".toList),
   ("converts_to".toList, "转化为".toList),
   ("metabolizes_to".toList, "代谢为".toList),
   ("upregulates".toList, "上调".toList),
   ("downregulates".toList, "下调".toList),
   ("blocks".toList, "阻断".toList),
   ("mediates".toList, "介导".toList),
   ("correlates_with".toList, "相关".toList),
   ("marks".toList, "标志".toList),
   ("indicates".toList, "指示".toList)]

/-- `rel_type = relation_type_map[rel_type] if rel_type in relation_type_map else rel_type`. -/
def mapRelationType (rt : Str) : Str :=
  match relation_type_map.find? (fun p => p.1 == rt) with
  | some p => p.2
  | none => rt

/-- `if entity_types and entity_type not in entity_types: continue` — the
Python parameter is `None` or a list; `None` and `[]` are both falsy, so the
filter is active only for a non-empty list, modelled by `List Str`. -/
def skipEntityType (entity_types : List Str) (ty : Str) : Bool :=
  !entity_types.isEmpty && !(entity_types.contains ty)

/-- `if entity_type not in merged_data["entities"]: merged_data["entities"][entity_type] = []`
(dict insertion appends the new key at the end). -/
def ensureType (es : List (Str × List Entity)) (ty : Str) : List (Str × List Entity) :=
  if es.any (fun p => p.1 == ty) then es else es ++ [(ty, [])]

/-- The entity list stored under a type key (empty when the key is absent). -/
def lookupType (es : List (Str × List Entity)) (ty : Str) : List Entity :=
  match es.find? (fun p => p.1 == ty) with
  | some p => p.2
  | none => []

/-- `entity_key in entity_map` — an entity with normalized text `norm` is
already stored under type `ty`.  (`entity_map` maps `(normalized_text,
entity_type)` to the very object stored in the per-type list, so map
membership coincides with list membership.) -/
def entKeyPresent (es : List (Str × List Entity)) (ty norm : Str) : Bool :=
  (lookupType es ty).any (fun e => normalize_entity_text e.text == norm)

/-- `existing_entity["occurrences"] = existing_entity.get("occurrences", 1) +
entity.get("occurrences", 1)` applied to the (unique) stored entity whose
normalized text is `norm`. -/
def updateFirstEntity (norm : Str) (add : Nat) : List Entity → List Entity
  | [] => []
  | e :: rest =>
    if normalize_entity_text e.text == norm then
      { e with occurrences := some (e.occurrences.getD 1 + add) } :: rest
    else e :: updateFirstEntity norm add rest

/-- Apply `f` to the entity list stored under key `ty`. -/
def updateTypeList (es : List (Str × List Entity)) (ty : Str)
    (f : List Entity → List Entity) : List (Str × List Entity) :=
  es.map (fun p => if p.1 == ty then (p.1, f p.2) else p)

/-- The per-entity body of the merge loop: skip when the normalized text is
empty; add the (copied) entity when its `(normalized_text, type)` key is
new; otherwise accumulate `occurrences` into the stored entity. -/
def entStep (ty : Str) (es : List (Str × List Entity)) (e : Entity) :
    List (Str × List Entity) :=
  let norm := normalize_entity_text e.text
  if norm.isEmpty then es
  else if entKeyPresent es ty norm then
    updateTypeList es ty (updateFirstEntity norm (e.occurrences.getD 1))
  else
    updateTypeList es ty (fun l => l ++ [e])

/-- One `(entity_type, entities)` group of a fragment's `entities` dict. -/
def mergeEntityGroup (entity_types : List Str) (es : List (Str × List Entity))
    (ty : Str) (group : List Entity) : List (Str × List Entity) :=
  if skipEntityType entity_types ty then es
  else group.foldl (entStep ty) (ensureType es ty)

/-- The whole `entities` dict of one fragment, in iteration order. -/
def mergeEntitiesPass (entity_types : List Str) (es : List (Str × List Entity))
    (groups : List (Str × List Entity)) : List (Str × List Entity) :=
  groups.foldl (fun es' g => mergeEntityGroup entity_types es' g.1 g.2) es

/-- The dedup key `(source_text, source_type, target_text, target_type, rel_type)`. -/
abbrev RelKey := Str × Str × Str × Str × Str

/-- The per-relation body of the merge loop: confidence filter (missing
confidence defaults to `0.5`), entity-type filter, relation-label
unification, then key-based dedup.  State = `(merged relations,
processed_relations)`. -/
def relStep (min_confidence : Rat) (entity_types : List Str)
    (st : List Relation × List RelKey) (r : Relation) : List Relation × List RelKey :=
  let (rels, keys) := st
  let confidence := r.confidence.getD (mkRat 1 2)
  if confidence < min_confidence then (rels, keys)
  else
    let source := r.source.getD ⟨none, none⟩
    let target := r.target.getD ⟨none, none⟩
    let source_text := normalize_entity_text source.text
    let target_text := normalize_entity_text target.text
    let source_type := source.type.getD []
    let target_type := target.type.getD []
    if !entity_types.isEmpty &&
        (!(entity_types.contains source_type) || !(entity_types.contains target_type)) then
      (rels, keys)
    else
      let rel_type := mapRelationType (r.relation.getD [])
      let rel_key : RelKey := (source_text, source_type, target_text, target_type, rel_type)
      if rel_key ∈ keys then (rels, keys)
      else (rels ++ [{ r with relation := some rel_type }], keys ++ [rel_key])

/-- A loaded `knowledge_graph.json` fragment (a fragment missing the
`entities` or `relations` key behaves as the empty list there, which the
source skips over identically).  `metadata` is bookkeeping the claims do
not touch and is not modelled. -/
structure KGFragment where
  entities : List (Str × List Entity)
  relations : List Relation
deriving DecidableEq

/-- The merge accumulator: merged entities dict, merged relations, and the
`processed_relations` key set. -/
structure MergeSt where
  entities : List (Str × List Entity)
  relations : List Relation
  keys : List RelKey
deriving DecidableEq

/-- Processing of one complete knowledge-graph fragment (entities then
relations). -/
def mergeFragment (min_confidence : Rat) (entity_types : List Str)
    (st : MergeSt) (d : KGFragment) : MergeSt :=
  let es := mergeEntitiesPass entity_types st.entities d.entities
  let rk := d.relations.foldl (relStep min_confidence entity_types) (st.relations, st.keys)
  ⟨es, rk.1, rk.2⟩

/-- Processing of one `entities.json` file together with its paired
`relations.json` file when present. -/
def mergeEntityFile (min_confidence : Rat) (entity_types : List Str)
    (st : MergeSt) (ef : (List (Str × List Entity)) × Option (List Relation)) : MergeSt :=
  let es := mergeEntitiesPass entity_types st.entities ef.1
  match ef.2 with
  | some rs =>
    let rk := rs.foldl (relStep min_confidence entity_types) (st.relations, st.keys)
    ⟨es, rk.1, rk.2⟩
  | none => ⟨es, st.relations, st.keys⟩

/-- The `max_entities` cap: per type, stable-sort by `occurrences`
descending (`sorted(..., key=occurrences, reverse=True)`) and keep the
first `max_entities`. -/
def capEntities (max_entities : Nat) (es : List (Str × List Entity)) :
    List (Str × List Entity) :=
  if 0 < max_entities then
    es.map (fun p =>
      (p.1, (p.2.mergeSort
        (fun a b => decide (b.occurrences.getD 1 ≤ a.occurrences.getD 1))).take max_entities))
  else es

/-- The merged output: the `entities` and `relations` of the result dict. -/
structure MergedKG where
  entities : List (Str × List Entity)
  relations : List Relation
deriving DecidableEq

/-- `merge_kg_data(files, min_confidence, max_entities, entity_types)`, with
the file classification already performed: `kgs` are the loaded
`knowledge_graph.json`-style fragments (processed first, in order) and
`entity_files` the loaded `entities.json` dicts with their optional paired
`relations.json` lists (processed second). -/
def merge_kg_data (kgs : List KGFragment)
    (entity_files : List ((List (Str × List Entity)) × Option (List Relation)))
    (min_confidence : Rat) (max_entities : Nat) (entity_types : List Str) : MergedKG :=
  let st1 := kgs.foldl (mergeFragment min_confidence entity_types) ⟨[], [], []⟩
  let st2 := entity_files.foldl (mergeEntityFile min_confidence entity_types) st1
  ⟨capEntities max_entities st2.entities, st2.relations⟩

/-! ## `src/kg_builder.py` — `KnowledgeGraphBuilder.build_graph` -/

/-- An entity record as read by the graph builder (`text`, falling back to
`name`, plus `occurrences`). -/
structure BEntity where
  text : Option Str
  name : Option Str
  occurrences : Option Nat
deriving DecidableEq

/-- `entity.get('text', '') or entity.get('name', '')` — `or` falls through
on the falsy empty string. -/
def entityText (e : BEntity) : Str :=
  let t := e.text.getD []
  if t.isEmpty then e.name.getD [] else t

/-- A `networkx` node with the attributes set by `build_graph`
(`type`, `label`, `occurrences`); the node key is the entity text. -/
structure BNode where
  id : Str
  type : Str
  label : Str
  occurrences : Nat
deriving DecidableEq

/-- A directed edge of the `MultiDiGraph` with the attributes set by
`build_graph` (`label`, `weight`). -/
structure BEdge where
  source : Str
  target : Str
  label : Str
  weight : Rat
deriving DecidableEq

/-- The built graph: node list (insertion order) and the multi-edge list. -/
structure BGraph where
  nodes : List BNode
  edges : List BEdge
deriving DecidableEq

/-- `self.graph.has_node(x)`. -/
def hasNodeL (nodes : List BNode) (x : Str) : Bool :=
  nodes.any (fun n => n.id == x)

/-- The node-adding body of `build_graph`: skip empty texts, `add_node` only
when the key is not yet present (so the first entity with a given text
wins; later ones are ignored). -/
def entNodeStep (ty : Str) (nodes : List BNode) (e : BEntity) : List BNode :=
  let t := entityText e
  if t.isEmpty then nodes
  else if hasNodeL nodes t then nodes
  else nodes ++ [⟨t, ty, t, e.occurrences.getD 1⟩]

/-- The edge-adding body of `build_graph`: skip when any of source text,
target text or relation label is empty, or when either endpoint is not an
existing node; otherwise `add_edge` (a `MultiDiGraph` keeps parallel
edges). -/
def relEdgeStep (nodes : List BNode) (edges : List BEdge) (r : Relation) : List BEdge :=
  let source := (r.source.getD ⟨none, none⟩).text.getD []
  let target := (r.target.getD ⟨none, none⟩).text.getD []
  let relation_type := r.relation.getD []
  if source.isEmpty || target.isEmpty || relation_type.isEmpty then edges
  else if !hasNodeL nodes source || !hasNodeL nodes target then edges
  else edges ++ [⟨source, target, relation_type, r.confidence.getD (mkRat 1 2)⟩]

/-- The fragment as read by `KnowledgeGraphBuilder` (`self.data`). -/
structure BFragment where
  entities : List (Str × List BEntity)
  relations : List Relation
deriving DecidableEq

/-- `KnowledgeGraphBuilder.build_graph()`: all nodes are added first (over
the `entities` dict in iteration order), then all edges. -/
def build_graph (d : BFragment) : BGraph :=
  let nodes := d.entities.foldl (fun ns g => g.2.foldl (entNodeStep g.1) ns) []
  let edges := d.relations.foldl (relEdgeStep nodes) []
  ⟨nodes, edges⟩

/-! ## `src/extractor/relation_extractor.py` — `RelationExtractor._parse_response`

The response text is turned into a value by `json.loads` (a stdlib call);
the validation logic operates on the parsed value, modelled by `JValue`.
-/

/-- A parsed JSON value (`json.loads` output). -/
inductive JValue where
  | null : JValue
  | bool (b : Bool) : JValue
  | num (q : Rat) : JValue
  | str (s : Str) : JValue
  | arr (l : List JValue) : JValue
  | obj (kvs : List (Str × JValue)) : JValue

/-- Key lookup in a parsed JSON object (`json.loads` produces unique keys,
so first-match lookup is exact). -/
def jLookup (kvs : List (Str × JValue)) (k : Str) : Option JValue :=
  match kvs.find? (fun p => p.1 == k) with
  | some p => some p.2
  | none => none

/-- The list the validation loop iterates over: a bare array, or the
`relations` value of an object.  When that value is itself not a list,
iterating it yields no dict elements (a string yields characters, a dict
yields string keys — every such element fails the `isinstance(relation,
dict)` check) or raises `TypeError` into the enclosing `except`, so the
result is `[]` either way, modelled by the empty list. -/
def relationCandidates (v : JValue) : List JValue :=
  match v with
  | .arr l => l
  | .obj kvs =>
    match jLookup kvs "relations".toList with
    | some (.arr l) => l
    | _ => []
  | _ => []

/-- `isinstance(entity, dict) and "text" in entity and "type" in entity`
for one endpoint. -/
def entityFieldOk (v : Option JValue) : Bool :=
  match v with
  | some (.obj ekvs) =>
    (jLookup ekvs "text".toList).isSome && (jLookup ekvs "type".toList).isSome
  | _ => false

/-- Validation of one candidate relation from `_parse_response`: must be a
dict with `source`, `target`, `relation` keys; both endpoints must be
dicts with `text` and `type`; a missing `confidence` is filled with `0.5`;
the `relation` value must be one of `allowed_relation_types`.  No
constraint whatsoever is placed on the `confidence` value. -/
def validateRelation (allowed : List Str) (v : JValue) : Option JValue :=
  match v with
  | .obj kvs =>
    if (jLookup kvs "source".toList).isSome && (jLookup kvs "target".toList).isSome
        && (jLookup kvs "relation".toList).isSome then
      if entityFieldOk (jLookup kvs "source".toList)
          && entityFieldOk (jLookup kvs "target".toList) then
        let kvs' := if (jLookup kvs "confidence".toList).isSome then kvs
                    else kvs ++ [("confidence".toList, .num (mkRat 1 2))]
        match jLookup kvs' "relation".toList with
        | some (.str s) => if allowed.contains s then some (.obj kvs') else none
        | _ => none
      else none
    else none
  | _ => none

/-- `RelationExtractor._parse_response` after `json.loads`: iterate the
candidates, keeping exactly the ones `validateRelation` accepts. -/
def parse_response (allowed : List Str) (v : JValue) : List JValue :=
  (relationCandidates v).filterMap (validateRelation allowed)

/-! ## `src/extractor/kimi_client.py` — `KimiClient.generate_completion`

The remote interaction is modelled by an oracle giving the outcome of each
(model, attempt) HTTP request.  Every path of the source's request loop is
inside `try/except`: a 200 returns the parsed body, a 429 sleeps and
retries the same model, a 404 breaks to the next model, any other status
or raised exception backs off and retries; sleeping and logging have no
bearing on the returned value and are not modelled. -/

/-- The outcome of one HTTP attempt, as the source distinguishes them. -/
inductive Outcome where
  | ok (content : Str) : Outcome
  | rateLimited : Outcome
  | notFound : Outcome
  | httpError (code : Nat) : Outcome
  | exc : Outcome
deriving DecidableEq

/-- `message` of one returned choice. -/
structure KimiMessage where
  content : Str
deriving DecidableEq

/-- One entry of `choices`. -/
structure KimiChoice where
  message : KimiMessage
deriving DecidableEq

/-- The dict returned by `generate_completion` (the fields the callers
read). -/
structure KimiResult where
  choices : List KimiChoice
deriving DecidableEq

/-- `{"choices": [{"message": {"content": ""}}]}` — the total-failure result. -/
def empty_completion : KimiResult := ⟨[⟨⟨[]⟩⟩]⟩

/-- `self.available_models` of `KimiClient`. -/
def available_models : List Str :=
  ["moonshot-v1-8k".toList, "moonshot-v1-32k".toList, "moonshot-v1-128k".toList]

/-- `self.max_retries`. -/
def kimi_max_retries : Nat := 5

/-- `models_to_try`: copy `available_models`, remove the primary when
present, then unconditionally insert the primary at position 0. -/
def modelsToTry (primary : Str) : List Str :=
  primary :: available_models.erase primary

/-- A successful response body: modelled as the choices the caller reads. -/
def okResult (content : Str) : KimiResult := ⟨[⟨⟨content⟩⟩]⟩

/-- The retry loop for one model over its attempt outcomes: a 200 returns,
a 404 abandons the model, everything else consumes the attempt. -/
def tryModelAttempts : List Outcome → Option KimiResult
  | [] => none
  | .ok content :: _ => some (okResult content)
  | .notFound :: _ => none
  | .rateLimited :: rest => tryModelAttempts rest
  | .httpError _ :: rest => tryModelAttempts rest
  | .exc :: rest => tryModelAttempts rest

/-- The outcomes of attempts `1..max_retries` for one model. -/
def attemptsFor (oracle : Str → Nat → Outcome) (model : Str) : List Outcome :=
  (List.range kimi_max_retries).map (fun i => oracle model (i + 1))

/-- The model-fallback loop of `generate_completion`. -/
def tryModels (oracle : Str → Nat → Outcome) : List Str → KimiResult
  | [] => empty_completion
  | m :: rest =>
    match tryModelAttempts (attemptsFor oracle m) with
    | some r => r
    | none => tryModels oracle rest

/-- `KimiClient.generate_completion`, as a function of the primary model and
the per-(model, attempt) outcome oracle. -/
def generate_completion (primary : Str) (oracle : Str → Nat → Outcome) : KimiResult :=
  tryModels oracle (modelsToTry primary)

/-! ## CLI exit behaviour — `src/batch_process.py` / `src/merge_kg_files.py` `main`

Both `main` functions end every path with a plain `return` (never
`sys.exit`), and the `if __name__ == "__main__": main()` footer discards
the return value, so the interpreter exits with status 0 on every path
that does not raise.  The "no input files" branch logs/prints an error
message and returns.  Modelled as the pair (exit status, error message
emitted), as a function of the discovered input files. -/

/-- `batch_process.main`: `input_files = glob(...)`; if empty, print
`"Error: No files matching ..."` and return; else run the batch (whose
per-item failures are caught) and return.  Exit status is 0 either way. -/
def batch_main (input_files : List Str) : Nat × Bool :=
  if input_files.isEmpty then (0, true) else (0, false)

/-- `merge_kg_files.main`: `json_files = find_kg_files(...)`; if empty, log
an error and return; else merge and return.  Exit status is 0 either way. -/
def merge_main (json_files : List Str) : Nat × Bool :=
  if json_files.isEmpty then (0, true) else (0, false)

/-! ## Chunker properties (C3, C4) -/

/-- The shape of the merged entities map that the uniqueness and idempotence
claims are about: each type key together with the normalized texts of its
entities. -/
def entKeysProj (es : List (Str × List Entity)) : List (Str × List Str) :=
  es.map (fun p => (p.1, p.2.map (fun e => normalize_entity_text e.text)))

/-- The combined confidence + entity-type guard of the relation loop. -/
def relPasses (min_confidence : Rat) (entity_types : List Str) (r : Relation) : Bool :=
  !(decide (r.confidence.getD (mkRat 1 2) < min_confidence)) &&
  !(!entity_types.isEmpty &&
    (!(entity_types.contains ((r.source.getD ⟨none, none⟩).type.getD [])) ||
     !(entity_types.contains ((r.target.getD ⟨none, none⟩).type.getD []))))

/-- The dedup key computed for a relation. -/
def relKeyOf (r : Relation) : RelKey :=
  (normalize_entity_text ((r.source.getD ⟨none, none⟩).text),
   (r.source.getD ⟨none, none⟩).type.getD [],
   normalize_entity_text ((r.target.getD ⟨none, none⟩).text),
   (r.target.getD ⟨none, none⟩).type.getD [],
   mapRelationType (r.relation.getD []))

/-- `relation.get('source', {}).get('text', '')` as read by `build_graph`. -/
def relSourceText (r : Relation) : Str := (r.source.getD ⟨none, none⟩).text.getD []

/-- `relation.get('target', {}).get('text', '')` as read by `build_graph`. -/
def relTargetText (r : Relation) : Str := (r.target.getD ⟨none, none⟩).text.getD []

/-- The fragment's entities flattened in iteration order, paired with their
type key — the order in which `build_graph` encounters them. -/
def flatEntsGroups : List (Str × List BEntity) → List (Str × BEntity)
  | [] => []
  | g :: gs => g.2.map (fun e => (g.1, e)) ++ flatEntsGroups gs

/-- The flattened entity sequence of a fragment. -/
def flatEnts (d : BFragment) : List (Str × BEntity) := flatEntsGroups d.entities

/-- Rewrite the declared types of every relation endpoint (the texts are
kept); `build_graph` never reads those types. -/
def mapRelTypes (f g : Option Str → Option Str) (d : BFragment) : BFragment :=
  ⟨d.entities, d.relations.map (fun r =>
    { r with source := r.source.map (fun s => ⟨s.text, f s.type⟩),
             target := r.target.map (fun t => ⟨t.text, g t.type⟩) })⟩

/-- The single node-building invariant: node ids are distinct and
non-empty, every node carries the attributes of the *first* flattened
entity with its text, and every processed entity with non-empty text has a
node. -/
def nodeProp (processed : List (Str × BEntity)) (ns : List BNode) : Prop :=
  (ns.map BNode.id).Nodup ∧
  (∀ n ∈ ns, ¬ n.id = [] ∧ n.label = n.id ∧
    ∃ q, processed.find? (fun q => entityText q.2 == n.id) = some q ∧
      n.type = q.1 ∧ n.occurrences = q.2.occurrences.getD 1) ∧
  (∀ q ∈ processed, ¬ (entityText q.2).isEmpty = true →
    hasNodeL ns (entityText q.2) = true)

/-!
# Theorems

All definitions above are straight translations of the source; the
theorems below settle the claims about them.
-/

theorem takeLastN_length_le (n : Nat) (l : Str) : (takeLastN n l).length ≤ n := by
  simp [takeLastN]; omega

theorem dropWhile_length_le (p : α → Bool) (l : List α) :
    (l.dropWhile p).length ≤ l.length := by
  induction l with
  | nil => simp
  | cons a t ih =>
    by_cases h : p a
    · simp [List.dropWhile_cons, h]; omega
    · simp [List.dropWhile_cons, h]

/-! ## `src/utils/text_processor.py` — `TextProcessor.split_text_into_chunks`

The chunker receives `max_chunk_size` (`maxCS`) and `overlap_size` (`ov`)
from the `TextProcessor` instance; they are passed here as explicit
arguments. -/

theorem forceSplitF_chunk_len (step maxCS fuel : Nat) :
    ∀ s : Str, ∀ c ∈ forceSplitF step maxCS fuel s, c.length ≤ maxCS := by
  induction fuel with
  | zero =>
    intro s c hc
    cases s <;> simp [forceSplitF] at hc
  | succ fuel ih =>
    intro s c hc
    cases s with
    | nil => simp [forceSplitF] at hc
    | cons a rest =>
      simp only [forceSplitF] at hc
      split at hc
      · simp at hc
      · rcases List.mem_cons.mp hc with rfl | hc'
        · simp [List.length_take]
        · exact ih _ c hc'

theorem forceSplit_chunk_len (step maxCS : Nat) (s : Str) :
    ∀ c ∈ forceSplit step maxCS s, c.length ≤ maxCS :=
  forceSplitF_chunk_len step maxCS s.length s

theorem sentStep_inv (maxCS ov : Nat) (chunks : List Str) (temp : Str) (s : Str)
    (hc : ∀ c ∈ chunks, c.length ≤ maxCS) (ht : temp.length ≤ maxCS) :
    (∀ c ∈ (sentStep maxCS ov (chunks, temp) s).1, c.length ≤ maxCS) ∧
      (sentStep maxCS ov (chunks, temp) s).2.length ≤ maxCS := by
  simp only [sentStep]
  split
  · rename_i h
    refine ⟨hc, ?_⟩
    by_cases he : temp.isEmpty
    · have : temp = [] := List.isEmpty_iff.mp he
      subst this
      simp only [List.length_nil] at h
      simp [he]
      omega
    · simp only [if_neg he, List.length_append, List.length_cons]
      omega
  · rename_i h
    have hc' : ∀ c ∈ (if temp.isEmpty then chunks else chunks ++ [temp]),
        c.length ≤ maxCS := by
      by_cases he : temp.isEmpty
      · simpa [he] using hc
      · intro c hcmem
        simp only [if_neg he, List.mem_append, List.mem_singleton] at hcmem
        rcases hcmem with hcmem | rfl
        · exact hc c hcmem
        · exact ht
    split
    · refine ⟨?_, ht⟩
      intro c hcmem
      rcases List.mem_append.mp hcmem with hcmem | hcmem
      · exact hc' c hcmem
      · exact forceSplit_chunk_len (maxCS - ov) maxCS s c hcmem
    · rename_i hlen
      refine ⟨hc', ?_⟩
      show s.length ≤ maxCS
      omega

theorem sentFold_inv (maxCS ov : Nat) (ss : List Str) (chunks : List Str) (temp : Str)
    (hc : ∀ c ∈ chunks, c.length ≤ maxCS) (ht : temp.length ≤ maxCS) :
    (∀ c ∈ (ss.foldl (sentStep maxCS ov) (chunks, temp)).1, c.length ≤ maxCS) ∧
      (ss.foldl (sentStep maxCS ov) (chunks, temp)).2.length ≤ maxCS := by
  induction ss generalizing chunks temp with
  | nil => exact ⟨hc, ht⟩
  | cons s ss ih =>
    have h := sentStep_inv maxCS ov chunks temp s hc ht
    simpa only [List.foldl_cons] using
      ih (sentStep maxCS ov (chunks, temp) s).1 (sentStep maxCS ov (chunks, temp) s).2 h.1 h.2

theorem paraStep_inv (maxCS ov : Nat) (chunks : List Str) (current : Str) (p : Str)
    (hc : ∀ c ∈ chunks, c.length ≤ maxCS) (ht : current.length ≤ maxCS) :
    (∀ c ∈ (paraStep maxCS ov (chunks, current) p).1, c.length ≤ maxCS) ∧
      (paraStep maxCS ov (chunks, current) p).2.length ≤ maxCS := by
  simp only [paraStep]
  have hc' : ∀ c ∈ (if current.isEmpty then chunks else chunks ++ [current]),
      c.length ≤ maxCS := by
    by_cases he : current.isEmpty
    · simpa [he] using hc
    · intro c hcmem
      simp only [if_neg he, List.mem_append, List.mem_singleton] at hcmem
      rcases hcmem with hcmem | rfl
      · exact hc c hcmem
      · exact ht
  split
  · exact sentFold_inv maxCS ov (splitSentences p) _ [] hc' (by simp)
  · split
    · rename_i hp hlen
      refine ⟨hc, ?_⟩
      by_cases he : current.isEmpty
      · have : current = [] := List.isEmpty_iff.mp he
        subst this
        simp only [List.length_nil] at hlen
        simp [he]
        omega
      · simp only [if_neg he, List.length_append, List.length_cons]
        omega
    · rename_i hp hlen
      refine ⟨?_, ?_⟩
      swap
      · show p.length ≤ maxCS
        omega
      intro c hcmem
      rcases List.mem_append.mp hcmem with hcmem | hcmem
      · exact hc c hcmem
      · simp only [List.mem_singleton] at hcmem
        subst hcmem
        exact ht

theorem paraFold_inv (maxCS ov : Nat) (ps : List Str) (chunks : List Str) (current : Str)
    (hc : ∀ c ∈ chunks, c.length ≤ maxCS) (ht : current.length ≤ maxCS) :
    (∀ c ∈ (ps.foldl (paraStep maxCS ov) (chunks, current)).1, c.length ≤ maxCS) ∧
      (ps.foldl (paraStep maxCS ov) (chunks, current)).2.length ≤ maxCS := by
  induction ps generalizing chunks current with
  | nil => exact ⟨hc, ht⟩
  | cons p ps ih =>
    have h := paraStep_inv maxCS ov chunks current p hc ht
    simpa only [List.foldl_cons] using
      ih (paraStep maxCS ov (chunks, current) p).1 (paraStep maxCS ov (chunks, current) p).2 h.1 h.2

theorem overlapGo_len (ov m : Nat) (prev : Str) (l : List Str)
    (hl : ∀ c ∈ l, c.length ≤ m) :
    ∀ c ∈ overlapGo ov prev l, c.length ≤ m + ov := by
  induction l generalizing prev with
  | nil => simp [overlapGo]
  | cons x xs ih =>
    intro c hc
    simp only [overlapGo, List.mem_cons] at hc
    rcases hc with rfl | hc'
    · have h1 := takeLastN_length_le ov prev
      have h2 := hl x (by simp)
      simp only [List.length_append]
      omega
    · exact ih x (fun c hcm => hl c (by simp [hcm])) c hc'

/-- C4: for every input text and every `max_chunk_size > overlap_size ≥ 0`,
every chunk returned by `split_text_into_chunks` has length at most
`max_chunk_size + overlap_size`. -/
theorem C4_chunk_length_bound (maxCS ov : Nat) (text : Str) (hov : ov < maxCS) :
    ∀ c ∈ split_text_into_chunks maxCS ov text, c.length ≤ maxCS + ov := by
  intro c hc
  simp only [split_text_into_chunks] at hc
  have hbase := paraFold_inv maxCS ov (text.splitOn '\n') [] [] (by simp) (by simp)
  split at hc
  · rename_i hle
    simp only [List.mem_singleton] at hc
    subst hc
    omega
  · set st := (text.splitOn '\n').foldl (paraStep maxCS ov) (([] : List Str), ([] : Str))
      with hst
    have h1 : ∀ x ∈ st.1, x.length ≤ maxCS := hbase.1
    have h2 : st.2.length ≤ maxCS := hbase.2
    set chunks := if st.2.isEmpty then st.1 else st.1 ++ [st.2] with hch
    have hall : ∀ x ∈ chunks, x.length ≤ maxCS := by
      rw [hch]
      by_cases he : st.2.isEmpty
      · simpa [he] using h1
      · intro x hx
        simp only [if_neg he, List.mem_append, List.mem_singleton] at hx
        rcases hx with hx | rfl
        · exact h1 x hx
        · exact h2
    split at hc
    · cases hchunks : chunks with
      | nil =>
        rw [hchunks] at hc
        simp [overlapPass] at hc
      | cons c0 cs =>
        rw [hchunks] at hc
        simp only [overlapPass, List.mem_cons] at hc
        rcases hc with rfl | hc'
        · have := hall c (by rw [hchunks]; exact List.mem_cons_self _ _)
          omega
        · have hl : ∀ x ∈ cs, x.length ≤ maxCS :=
            fun x hx => hall x (by rw [hchunks]; exact List.mem_cons_of_mem _ hx)
          have := overlapGo_len ov maxCS c0 cs hl c hc'
          omega
    · have := hall c hc
      omega

/-- Witness for C4: at `max_chunk_size = 10`, `overlap_size = 2` the input
`"123456789\nabc"` produces the chunk `"89abc"`, whose length obeys the
bound. -/
theorem C4_chunk_length_bound_witness :
    2 < 10 ∧ "89abc".toList ∈ split_text_into_chunks 10 2 "123456789\nabc".toList ∧
      ("89abc".toList).length ≤ 10 + 2 :=
  ⟨by decide, by decide,
    C4_chunk_length_bound 10 2 "123456789\nabc".toList (by decide) "89abc".toList (by decide)⟩

/-- C3: the chunker loses the claimed reconstruction property.  With
`max_chunk_size = 10`, `overlap_size = 0` (so the claim's de-overlapped
concatenation is the plain concatenation) and the single paragraph
`"aaaa. bbbbbbbbbbbbb. cc"`, the force-split of the over-long second
sentence flushes `temp_chunk` (`"aaaa."`) without resetting it, so the
sentence `"aaaa."` is emitted twice — once alone and once glued to
`"cc"` — and the concatenated chunks do not reconstruct the original
paragraph/sentence sequence. -/
theorem C3_chunker_duplicates_content :
    split_text_into_chunks 10 0 "aaaa. bbbbbbbbbbbbb. cc".toList =
      ["aaaa.".toList, "bbbbbbbbbb".toList, "bbb.".toList, "aaaa. cc".toList] ∧
    (split_text_into_chunks 10 0 "aaaa. bbbbbbbbbbbbb. cc".toList).foldl (· ++ ·) [] ≠
      "aaaa. bbbbbbbbbbbbb. cc".toList := by
  exact ⟨by decide, by decide⟩

/-! ## Merge properties: shared lemmas -/

theorem updateFirstEntity_norm_map (norm : Str) (add : Nat) (l : List Entity) :
    (updateFirstEntity norm add l).map (fun e => normalize_entity_text e.text) =
      l.map (fun e => normalize_entity_text e.text) := by
  induction l with
  | nil => rfl
  | cons e rest ih =>
    by_cases h : normalize_entity_text e.text == norm
    · simp [updateFirstEntity, h]
    · simp [updateFirstEntity, h, ih]

theorem updateTypeList_find? (es : List (Str × List Entity)) (ty ty' : Str)
    (f : List Entity → List Entity) :
    (updateTypeList es ty f).find? (fun p => p.1 == ty') =
      ((es.find? (fun p => p.1 == ty')).map
        (fun p => if p.1 == ty then (p.1, f p.2) else p)) := by
  unfold updateTypeList
  rw [List.find?_map]
  have hpred : ((fun p : Str × List Entity => p.1 == ty') ∘
      (fun p : Str × List Entity => if p.1 == ty then (p.1, f p.2) else p)) =
      (fun p : Str × List Entity => p.1 == ty') := by
    funext p
    by_cases h : p.1 == ty <;> simp [Function.comp, h]
  rw [hpred]

theorem updateTypeList_keys (es : List (Str × List Entity)) (ty : Str)
    (f : List Entity → List Entity) :
    (updateTypeList es ty f).map Prod.fst = es.map Prod.fst := by
  unfold updateTypeList
  rw [List.map_map]
  have hpred : (Prod.fst ∘ (fun p : Str × List Entity => if p.1 == ty then (p.1, f p.2) else p)) =
      (Prod.fst : Str × List Entity → Str) := by
    funext p
    by_cases h : p.1 == ty <;> simp [Function.comp, h]
  rw [hpred]

theorem lookupType_updateTypeList_other (es : List (Str × List Entity)) (ty ty' : Str)
    (f : List Entity → List Entity) (h : ty' ≠ ty) :
    lookupType (updateTypeList es ty f) ty' = lookupType es ty' := by
  unfold lookupType
  rw [updateTypeList_find?]
  cases hfind : es.find? (fun p => p.1 == ty') with
  | none => rfl
  | some p =>
    have hp := List.find?_some hfind
    have hp' : p.1 = ty' := by simpa [beq_iff_eq] using hp
    have hne : ¬ p.1 = ty := by rw [hp']; exact h
    simp [hne]

theorem lookupType_updateTypeList_same (es : List (Str × List Entity)) (ty : Str)
    (f : List Entity → List Entity) :
    lookupType (updateTypeList es ty f) ty =
      match es.find? (fun p => p.1 == ty) with
      | some p => f p.2
      | none => [] := by
  unfold lookupType
  rw [updateTypeList_find?]
  cases hfind : es.find? (fun p => p.1 == ty) with
  | none => rfl
  | some p =>
    have hp := List.find?_some hfind
    have hp' : p.1 = ty := by simpa [beq_iff_eq] using hp
    simp [hp']

theorem lookupType_eq_find? (es : List (Str × List Entity)) (ty : Str) :
    lookupType es ty = match es.find? (fun p => p.1 == ty) with
      | some p => p.2
      | none => [] := rfl

theorem entKeysProj_find? (es : List (Str × List Entity)) (ty : Str) :
    (entKeysProj es).find? (fun p => p.1 == ty) =
      (es.find? (fun p => p.1 == ty)).map
        (fun p => (p.1, p.2.map (fun e => normalize_entity_text e.text))) := by
  unfold entKeysProj
  rw [List.find?_map]
  rfl

theorem entKeysProj_keys (es : List (Str × List Entity)) :
    (entKeysProj es).map Prod.fst = es.map Prod.fst := by
  unfold entKeysProj
  rw [List.map_map]
  rfl

theorem any_map_general (f : α → β) (l : List α) (q : β → Bool) :
    (l.map f).any q = l.any (fun a => q (f a)) := by
  induction l with
  | nil => rfl
  | cons a t ih => simp [ih]

/-- `entKeyPresent` is determined by the `entKeysProj` shape. -/
theorem entKeyPresent_congr (es es' : List (Str × List Entity)) (ty n : Str)
    (h : entKeysProj es = entKeysProj es') :
    entKeyPresent es ty n = entKeyPresent es' ty n := by
  have key : ∀ xs : List (Str × List Entity), entKeyPresent xs ty n =
      (match (entKeysProj xs).find? (fun p => p.1 == ty) with
       | some p => p.2.any (fun x => x == n)
       | none => false) := by
    intro xs
    rw [entKeysProj_find?]
    unfold entKeyPresent lookupType
    cases hfind : xs.find? (fun p => p.1 == ty) with
    | none => rfl
    | some p => simp [any_map_general]
  rw [key es, key es', h]

/-- The presence of a type key is determined by the `entKeysProj` shape. -/
theorem hasTypeKey_congr (es es' : List (Str × List Entity))
    (h : entKeysProj es = entKeysProj es') (ty : Str) :
    es.any (fun p => p.1 == ty) = es'.any (fun p => p.1 == ty) := by
  have key : ∀ xs : List (Str × List Entity),
      xs.any (fun p => p.1 == ty) = (entKeysProj xs).any (fun p => p.1 == ty) := by
    intro xs
    unfold entKeysProj
    rw [any_map_general]
  rw [key es, key es', h]

theorem ensureType_of_mem (es : List (Str × List Entity)) (ty : Str)
    (h : es.any (fun p => p.1 == ty) = true) : ensureType es ty = es := by
  simp [ensureType, h]

theorem lookupType_ensureType (es : List (Str × List Entity)) (ty ty' : Str) :
    lookupType (ensureType es ty) ty' = lookupType es ty' := by
  unfold ensureType
  split
  · rfl
  · rename_i h
    unfold lookupType
    rw [List.find?_append]
    cases hfind : es.find? (fun p => p.1 == ty') with
    | some p => rfl
    | none =>
      by_cases hty : ty = ty'
      · subst hty
        simp
      · have : ((ty, ([] : List Entity)).1 == ty') = false := by
          simp [beq_iff_eq, hty]
        simp [List.find?, this]

/-- `entKeyPresent` is unchanged by `ensureType` (the added list is empty). -/
theorem entKeyPresent_ensureType (es : List (Str × List Entity)) (ty ty' n : Str) :
    entKeyPresent (ensureType es ty) ty' n = entKeyPresent es ty' n := by
  unfold entKeyPresent
  rw [lookupType_ensureType]

theorem entStep_eq (ty : Str) (es : List (Str × List Entity)) (e : Entity) :
    entStep ty es e =
      (if (normalize_entity_text e.text).isEmpty = true then es
       else if entKeyPresent es ty (normalize_entity_text e.text) = true then
         updateTypeList es ty
           (updateFirstEntity (normalize_entity_text e.text) (e.occurrences.getD 1))
       else updateTypeList es ty (fun l => l ++ [e])) := rfl

theorem entKeysProj_updateFirst (es : List (Str × List Entity)) (ty n : Str) (add : Nat) :
    entKeysProj (updateTypeList es ty (updateFirstEntity n add)) = entKeysProj es := by
  unfold entKeysProj updateTypeList
  rw [List.map_map]
  apply List.map_congr_left
  intro p hp
  by_cases h : p.1 == ty <;> simp [Function.comp, h, updateFirstEntity_norm_map]

theorem updateTypeList_any_key (es : List (Str × List Entity)) (ty : Str)
    (f : List Entity → List Entity) (ty' : Str) :
    (updateTypeList es ty f).any (fun p => p.1 == ty') = es.any (fun p => p.1 == ty') := by
  unfold updateTypeList
  rw [any_map_general]
  congr 1
  funext p
  by_cases h : p.1 == ty <;> simp [h]

theorem entStep_keys (ty : Str) (es : List (Str × List Entity)) (e : Entity) :
    (entStep ty es e).map Prod.fst = es.map Prod.fst := by
  rw [entStep_eq]
  split
  · rfl
  · split <;> exact updateTypeList_keys es ty _

theorem entStep_any_key (ty : Str) (es : List (Str × List Entity)) (e : Entity) (ty' : Str) :
    (entStep ty es e).any (fun p => p.1 == ty') = es.any (fun p => p.1 == ty') := by
  rw [entStep_eq]
  split
  · rfl
  · split <;> exact updateTypeList_any_key es ty _ ty'

theorem ensureType_any_key_self (es : List (Str × List Entity)) (ty : Str) :
    (ensureType es ty).any (fun p => p.1 == ty) = true := by
  unfold ensureType
  split
  · rename_i h
    exact h
  · simp [List.any_append]

theorem ensureType_any_key_mono (es : List (Str × List Entity)) (ty ty' : Str)
    (h : es.any (fun p => p.1 == ty') = true) :
    (ensureType es ty).any (fun p => p.1 == ty') = true := by
  unfold ensureType
  split
  · exact h
  · simp [List.any_append, h]

/-- `entStep` never removes an entity key. -/
theorem entKeyPresent_entStep_mono (ty : Str) (es : List (Str × List Entity)) (e : Entity)
    (ty' n' : Str) (h : entKeyPresent es ty' n' = true) :
    entKeyPresent (entStep ty es e) ty' n' = true := by
  rw [entStep_eq]
  split
  · exact h
  · split
    · rw [entKeyPresent_congr _ es _ _ (entKeysProj_updateFirst es ty _ _)]
      exact h
    · by_cases hty : ty' = ty
      · subst hty
        unfold entKeyPresent
        rw [lookupType_updateTypeList_same]
        unfold entKeyPresent at h
        cases hfind : es.find? (fun p => p.1 == ty') with
        | none =>
          rw [lookupType_eq_find?, hfind] at h
          simp at h
        | some p =>
          rw [lookupType_eq_find?, hfind] at h
          simpa [List.any_append] using Or.inl h
      · unfold entKeyPresent
        rw [lookupType_updateTypeList_other _ _ _ _ hty]
        exact h

/-- After `entStep` processes an entity with non-empty normalized text under
an existing type key, that entity's key is present. -/
theorem entKeyPresent_entStep_self (ty : Str) (es : List (Str × List Entity)) (e : Entity)
    (hn : ¬ (normalize_entity_text e.text).isEmpty = true)
    (hty : es.any (fun p => p.1 == ty) = true) :
    entKeyPresent (entStep ty es e) ty (normalize_entity_text e.text) = true := by
  rw [entStep_eq]
  split
  · rename_i hcond
    exact absurd hcond hn
  · split
    · rename_i hpres
      rw [entKeyPresent_congr _ es _ _ (entKeysProj_updateFirst es ty _ _)]
      exact hpres
    · unfold entKeyPresent
      rw [lookupType_updateTypeList_same]
      cases hfind : es.find? (fun p => p.1 == ty) with
      | none =>
        exfalso
        have : ∃ p ∈ es, (p.1 == ty) = true := by
          simpa [List.any_eq_true] using hty
        have hsome : (es.find? (fun p => p.1 == ty)).isSome := by
          rw [List.find?_isSome]
          simpa using this
        rw [hfind] at hsome
        simp at hsome
      | some p =>
        simp [List.any_append]

theorem entStep_keysProj (ty : Str) (es : List (Str × List Entity)) (e : Entity)
    (h : (normalize_entity_text e.text).isEmpty = true ∨
         entKeyPresent es ty (normalize_entity_text e.text) = true) :
    entKeysProj (entStep ty es e) = entKeysProj es := by
  rw [entStep_eq]
  rcases h with h | h
  · simp [h]
  · by_cases hn : (normalize_entity_text e.text).isEmpty = true
    · simp [hn]
    · rw [if_neg hn, if_pos h]
      exact entKeysProj_updateFirst es ty _ _

theorem entFold_keysProj (ty : Str) (group : List Entity) :
    ∀ es : List (Str × List Entity),
      (∀ e ∈ group, (normalize_entity_text e.text).isEmpty = true ∨
        entKeyPresent es ty (normalize_entity_text e.text) = true) →
      entKeysProj (group.foldl (entStep ty) es) = entKeysProj es := by
  induction group with
  | nil => intro es _; rfl
  | cons e rest ih =>
    intro es h
    have hstep := entStep_keysProj ty es e (h e (List.mem_cons_self _ _))
    have hrest : ∀ x ∈ rest, (normalize_entity_text x.text).isEmpty = true ∨
        entKeyPresent (entStep ty es e) ty (normalize_entity_text x.text) = true := by
      intro x hx
      rcases h x (List.mem_cons_of_mem _ hx) with hx' | hx'
      · exact Or.inl hx'
      · exact Or.inr (by rw [entKeyPresent_congr _ es _ _ hstep]; exact hx')
    simp only [List.foldl_cons]
    rw [ih (entStep ty es e) hrest, hstep]

theorem mergeEntitiesPass_keysProj (ets : List Str) (groups : List (Str × List Entity)) :
    ∀ es : List (Str × List Entity),
      (∀ g ∈ groups, skipEntityType ets g.1 = false →
        es.any (fun p => p.1 == g.1) = true ∧
        ∀ e ∈ g.2, (normalize_entity_text e.text).isEmpty = true ∨
          entKeyPresent es g.1 (normalize_entity_text e.text) = true) →
      entKeysProj (mergeEntitiesPass ets es groups) = entKeysProj es := by
  induction groups with
  | nil => intro es _; rfl
  | cons g gs ih =>
    intro es h
    have hg : entKeysProj (mergeEntityGroup ets es g.1 g.2) = entKeysProj es := by
      unfold mergeEntityGroup
      split
      · rfl
      · rename_i hskip
        have hcond := h g (List.mem_cons_self _ _) (by simpa using hskip)
        rw [ensureType_of_mem es g.1 hcond.1]
        exact entFold_keysProj g.1 g.2 es hcond.2
    have hcond' : ∀ g' ∈ gs, skipEntityType ets g'.1 = false →
        (mergeEntityGroup ets es g.1 g.2).any (fun p => p.1 == g'.1) = true ∧
        ∀ e ∈ g'.2, (normalize_entity_text e.text).isEmpty = true ∨
          entKeyPresent (mergeEntityGroup ets es g.1 g.2) g'.1
            (normalize_entity_text e.text) = true := by
      intro g' hg' hsk
      obtain ⟨h1, h2⟩ := h g' (List.mem_cons_of_mem _ hg') hsk
      refine ⟨by rw [hasTypeKey_congr _ es hg g'.1]; exact h1, ?_⟩
      intro e he
      rcases h2 e he with he' | he'
      · exact Or.inl he'
      · exact Or.inr (by rw [entKeyPresent_congr _ es _ _ hg]; exact he')
    have : mergeEntitiesPass ets es (g :: gs) =
        mergeEntitiesPass ets (mergeEntityGroup ets es g.1 g.2) gs := rfl
    rw [this, ih (mergeEntityGroup ets es g.1 g.2) hcond', hg]

theorem entKeyPresent_entFold_mono (ty : Str) (group : List Entity) :
    ∀ es ty' n', entKeyPresent es ty' n' = true →
      entKeyPresent (group.foldl (entStep ty) es) ty' n' = true := by
  induction group with
  | nil => intro es _ _ h; exact h
  | cons e rest ih =>
    intro es ty' n' h
    exact ih (entStep ty es e) ty' n' (entKeyPresent_entStep_mono ty es e ty' n' h)

theorem entFold_any_key (ty : Str) (group : List Entity) :
    ∀ es ty', (group.foldl (entStep ty) es).any (fun p => p.1 == ty') =
      es.any (fun p => p.1 == ty') := by
  induction group with
  | nil => intro es _; rfl
  | cons e rest ih =>
    intro es ty'
    simp only [List.foldl_cons]
    rw [ih (entStep ty es e) ty', entStep_any_key]

theorem entKeyPresent_group_mono (ets : List Str) (es : List (Str × List Entity))
    (ty : Str) (group : List Entity) (ty' n' : Str)
    (h : entKeyPresent es ty' n' = true) :
    entKeyPresent (mergeEntityGroup ets es ty group) ty' n' = true := by
  unfold mergeEntityGroup
  split
  · exact h
  · exact entKeyPresent_entFold_mono ty group (ensureType es ty) ty' n'
      (by rw [entKeyPresent_ensureType]; exact h)

theorem hasTypeKey_group_mono (ets : List Str) (es : List (Str × List Entity))
    (ty : Str) (group : List Entity) (ty' : Str)
    (h : es.any (fun p => p.1 == ty') = true) :
    (mergeEntityGroup ets es ty group).any (fun p => p.1 == ty') = true := by
  unfold mergeEntityGroup
  split
  · exact h
  · rw [entFold_any_key]
    exact ensureType_any_key_mono es ty ty' h

theorem entKeyPresent_pass_mono (ets : List Str) (groups : List (Str × List Entity)) :
    ∀ es ty' n', entKeyPresent es ty' n' = true →
      entKeyPresent (mergeEntitiesPass ets es groups) ty' n' = true := by
  induction groups with
  | nil => intro es _ _ h; exact h
  | cons g gs ih =>
    intro es ty' n' h
    exact ih (mergeEntityGroup ets es g.1 g.2) ty' n'
      (entKeyPresent_group_mono ets es g.1 g.2 ty' n' h)

theorem hasTypeKey_pass_mono (ets : List Str) (groups : List (Str × List Entity)) :
    ∀ es ty', es.any (fun p => p.1 == ty') = true →
      (mergeEntitiesPass ets es groups).any (fun p => p.1 == ty') = true := by
  induction groups with
  | nil => intro es _ h; exact h
  | cons g gs ih =>
    intro es ty' h
    exact ih (mergeEntityGroup ets es g.1 g.2) ty'
      (hasTypeKey_group_mono ets es g.1 g.2 ty' h)

theorem entFold_establishes (ty : Str) (group : List Entity) :
    ∀ es e, e ∈ group → ¬ (normalize_entity_text e.text).isEmpty = true →
      es.any (fun p => p.1 == ty) = true →
      entKeyPresent (group.foldl (entStep ty) es) ty (normalize_entity_text e.text) = true := by
  induction group with
  | nil => intro es e he; cases he
  | cons x rest ih =>
    intro es e he hn hty
    rcases List.mem_cons.mp he with rfl | he'
    · exact entKeyPresent_entFold_mono ty rest (entStep ty es e) ty _
        (entKeyPresent_entStep_self ty es e hn hty)
    · exact ih (entStep ty es x) e he' hn (by rw [entStep_any_key]; exact hty)

theorem mergeEntityGroup_establishes (ets : List Str) (es : List (Str × List Entity))
    (ty : Str) (group : List Entity) (e : Entity)
    (hskip : skipEntityType ets ty = false) (he : e ∈ group)
    (hn : ¬ (normalize_entity_text e.text).isEmpty = true) :
    entKeyPresent (mergeEntityGroup ets es ty group) ty (normalize_entity_text e.text) = true := by
  unfold mergeEntityGroup
  rw [if_neg (by simp [hskip])]
  exact entFold_establishes ty group (ensureType es ty) e he hn (ensureType_any_key_self es ty)

theorem mergeEntityGroup_establishes_key (ets : List Str) (es : List (Str × List Entity))
    (ty : Str) (group : List Entity) (hskip : skipEntityType ets ty = false) :
    (mergeEntityGroup ets es ty group).any (fun p => p.1 == ty) = true := by
  unfold mergeEntityGroup
  rw [if_neg (by simp [hskip])]
  rw [entFold_any_key]
  exact ensureType_any_key_self es ty

theorem mergeEntitiesPass_establishes (ets : List Str) (groups : List (Str × List Entity)) :
    ∀ es g, g ∈ groups → skipEntityType ets g.1 = false →
      (mergeEntitiesPass ets es groups).any (fun p => p.1 == g.1) = true ∧
      ∀ e ∈ g.2, ¬ (normalize_entity_text e.text).isEmpty = true →
        entKeyPresent (mergeEntitiesPass ets es groups) g.1
          (normalize_entity_text e.text) = true := by
  induction groups with
  | nil => intro es g hg; cases hg
  | cons g0 gs ih =>
    intro es g hg hsk
    have hunf : mergeEntitiesPass ets es (g0 :: gs) =
        mergeEntitiesPass ets (mergeEntityGroup ets es g0.1 g0.2) gs := rfl
    rcases List.mem_cons.mp hg with rfl | hg'
    · rw [hunf]
      constructor
      · exact hasTypeKey_pass_mono ets gs _ g.1
          (mergeEntityGroup_establishes_key ets es g.1 g.2 hsk)
      · intro e he hn
        exact entKeyPresent_pass_mono ets gs _ g.1 _
          (mergeEntityGroup_establishes ets es g.1 g.2 e hsk he hn)
    · rw [hunf]
      exact ih (mergeEntityGroup ets es g0.1 g0.2) g hg' hsk

theorem relStep_char (min_confidence : Rat) (entity_types : List Str)
    (rels : List Relation) (keys : List RelKey) (r : Relation) :
    relStep min_confidence entity_types (rels, keys) r =
      if relPasses min_confidence entity_types r then
        (if relKeyOf r ∈ keys then (rels, keys)
         else (rels ++ [{ r with relation := some (mapRelationType (r.relation.getD [])) }],
               keys ++ [relKeyOf r]))
      else (rels, keys) := by
  have hunf : relStep min_confidence entity_types (rels, keys) r =
      (if r.confidence.getD (mkRat 1 2) < min_confidence then (rels, keys)
       else if (!entity_types.isEmpty &&
            (!(entity_types.contains ((r.source.getD ⟨none, none⟩).type.getD [])) ||
             !(entity_types.contains ((r.target.getD ⟨none, none⟩).type.getD [])))) = true then
         (rels, keys)
       else if relKeyOf r ∈ keys then (rels, keys)
       else (rels ++ [{ r with relation := some (mapRelationType (r.relation.getD [])) }],
             keys ++ [relKeyOf r])) := rfl
  rw [hunf]
  by_cases h1 : r.confidence.getD (mkRat 1 2) < min_confidence
  · rw [if_pos h1]
    have hp : relPasses min_confidence entity_types r = false := by
      unfold relPasses
      rw [decide_eq_true h1]
      simp
    rw [hp]
    simp
  · rw [if_neg h1]
    by_cases h2 : (!entity_types.isEmpty &&
        (!(entity_types.contains ((r.source.getD ⟨none, none⟩).type.getD [])) ||
         !(entity_types.contains ((r.target.getD ⟨none, none⟩).type.getD [])))) = true
    · rw [if_pos h2]
      have hp : relPasses min_confidence entity_types r = false := by
        unfold relPasses
        rw [h2]
        simp
      rw [hp]
      simp
    · rw [if_neg h2]
      have hp : relPasses min_confidence entity_types r = true := by
        unfold relPasses
        rw [Bool.not_eq_true] at h2
        rw [h2, decide_eq_false h1]
        simp
      rw [hp]
      simp

theorem relStep_keys_mono (min_confidence : Rat) (entity_types : List Str)
    (rels : List Relation) (keys : List RelKey) (r : Relation) (k : RelKey)
    (h : k ∈ keys) : k ∈ (relStep min_confidence entity_types (rels, keys) r).2 := by
  rw [relStep_char]
  split
  · split
    · exact h
    · simp only [List.mem_append]
      exact Or.inl h
  · exact h

theorem relFold_keys_mono (min_confidence : Rat) (entity_types : List Str)
    (rs : List Relation) :
    ∀ rels keys k, k ∈ keys →
      k ∈ (rs.foldl (relStep min_confidence entity_types) (rels, keys)).2 := by
  induction rs with
  | nil => intro rels keys k h; exact h
  | cons r rest ih =>
    intro rels keys k h
    simp only [List.foldl_cons]
    have hstep := relStep_keys_mono min_confidence entity_types rels keys r k h
    rcases hr2 : relStep min_confidence entity_types (rels, keys) r with ⟨rels', keys'⟩
    rw [hr2] at hstep
    exact ih rels' keys' k hstep

theorem relFold_establishes (min_confidence : Rat) (entity_types : List Str)
    (rs : List Relation) :
    ∀ rels keys r, r ∈ rs → relPasses min_confidence entity_types r = true →
      relKeyOf r ∈ (rs.foldl (relStep min_confidence entity_types) (rels, keys)).2 := by
  induction rs with
  | nil => intro rels keys r hr; cases hr
  | cons x rest ih =>
    intro rels keys r hr hp
    rcases List.mem_cons.mp hr with rfl | hr'
    · simp only [List.foldl_cons]
      have hk : relKeyOf r ∈ (relStep min_confidence entity_types (rels, keys) r).2 := by
        rw [relStep_char, if_pos hp]
        split
        · assumption
        · simp
      rcases hr2 : relStep min_confidence entity_types (rels, keys) r with ⟨rels', keys'⟩
      rw [hr2] at hk
      exact relFold_keys_mono min_confidence entity_types rest rels' keys' _ hk
    · simp only [List.foldl_cons]
      rcases hr2 : relStep min_confidence entity_types (rels, keys) x with ⟨rels', keys'⟩
      exact ih rels' keys' r hr' hp

/-- When every passing relation's key is already processed, the relation
loop changes nothing. -/
theorem relFold_noop (min_confidence : Rat) (entity_types : List Str)
    (rs : List Relation) :
    ∀ rels keys,
      (∀ r ∈ rs, relPasses min_confidence entity_types r = true → relKeyOf r ∈ keys) →
      rs.foldl (relStep min_confidence entity_types) (rels, keys) = (rels, keys) := by
  induction rs with
  | nil => intro rels keys _; rfl
  | cons r rest ih =>
    intro rels keys h
    have hstep : relStep min_confidence entity_types (rels, keys) r = (rels, keys) := by
      rw [relStep_char]
      by_cases hp : relPasses min_confidence entity_types r = true
      · rw [if_pos hp, if_pos (h r (List.mem_cons_self _ _) hp)]
      · rw [if_neg hp]
    simp only [List.foldl_cons, hstep]
    exact ih rels keys (fun x hx => h x (List.mem_cons_of_mem _ hx))

theorem relPasses_conf (min_confidence : Rat) (entity_types : List Str) (r : Relation)
    (hp : relPasses min_confidence entity_types r = true) :
    ¬ (r.confidence.getD (mkRat 1 2) < min_confidence) := by
  unfold relPasses at hp
  rw [Bool.and_eq_true] at hp
  have h1 := hp.1
  rw [Bool.not_eq_true'] at h1
  exact of_decide_eq_false h1

theorem relStep_conf_inv (min_confidence : Rat) (entity_types : List Str)
    (rels : List Relation) (keys : List RelKey) (r : Relation)
    (h : ∀ x ∈ rels, ¬ (x.confidence.getD (mkRat 1 2) < min_confidence)) :
    ∀ x ∈ (relStep min_confidence entity_types (rels, keys) r).1,
      ¬ (x.confidence.getD (mkRat 1 2) < min_confidence) := by
  rw [relStep_char]
  by_cases hp : relPasses min_confidence entity_types r = true
  · rw [if_pos hp]
    split
    · exact h
    · intro x hx
      rcases List.mem_append.mp hx with hx | hx
      · exact h x hx
      · simp only [List.mem_singleton] at hx
        subst hx
        simpa using relPasses_conf min_confidence entity_types r hp
  · rw [if_neg hp]
    exact h

theorem relFold_conf_inv (min_confidence : Rat) (entity_types : List Str)
    (rs : List Relation) :
    ∀ rels keys, (∀ x ∈ rels, ¬ (x.confidence.getD (mkRat 1 2) < min_confidence)) →
      ∀ x ∈ (rs.foldl (relStep min_confidence entity_types) (rels, keys)).1,
        ¬ (x.confidence.getD (mkRat 1 2) < min_confidence) := by
  induction rs with
  | nil => intro rels keys h; exact h
  | cons r rest ih =>
    intro rels keys h
    simp only [List.foldl_cons]
    have hstep := relStep_conf_inv min_confidence entity_types rels keys r h
    rcases hr2 : relStep min_confidence entity_types (rels, keys) r with ⟨rels', keys'⟩
    rw [hr2] at hstep
    exact ih rels' keys' hstep

theorem mergeFragment_conf_inv (min_confidence : Rat) (entity_types : List Str)
    (st : MergeSt) (d : KGFragment)
    (h : ∀ x ∈ st.relations, ¬ (x.confidence.getD (mkRat 1 2) < min_confidence)) :
    ∀ x ∈ (mergeFragment min_confidence entity_types st d).relations,
      ¬ (x.confidence.getD (mkRat 1 2) < min_confidence) := by
  have hrw : (mergeFragment min_confidence entity_types st d).relations =
      (d.relations.foldl (relStep min_confidence entity_types)
        (st.relations, st.keys)).1 := rfl
  rw [hrw]
  exact relFold_conf_inv min_confidence entity_types d.relations st.relations st.keys h

theorem mergeEntityFile_conf_inv (min_confidence : Rat) (entity_types : List Str)
    (st : MergeSt) (ef : (List (Str × List Entity)) × Option (List Relation))
    (h : ∀ x ∈ st.relations, ¬ (x.confidence.getD (mkRat 1 2) < min_confidence)) :
    ∀ x ∈ (mergeEntityFile min_confidence entity_types st ef).relations,
      ¬ (x.confidence.getD (mkRat 1 2) < min_confidence) := by
  obtain ⟨egroups, orels⟩ := ef
  cases orels with
  | none => exact h
  | some rs =>
    have hrw : (mergeEntityFile min_confidence entity_types st (egroups, some rs)).relations =
        (rs.foldl (relStep min_confidence entity_types) (st.relations, st.keys)).1 := rfl
    rw [hrw]
    exact relFold_conf_inv min_confidence entity_types rs st.relations st.keys h

theorem kgsFold_conf_inv (min_confidence : Rat) (entity_types : List Str)
    (kgs : List KGFragment) :
    ∀ st : MergeSt, (∀ x ∈ st.relations, ¬ (x.confidence.getD (mkRat 1 2) < min_confidence)) →
      ∀ x ∈ (kgs.foldl (mergeFragment min_confidence entity_types) st).relations,
        ¬ (x.confidence.getD (mkRat 1 2) < min_confidence) := by
  induction kgs with
  | nil => intro st h; exact h
  | cons d rest ih =>
    intro st h
    exact ih _ (mergeFragment_conf_inv min_confidence entity_types st d h)

theorem efsFold_conf_inv (min_confidence : Rat) (entity_types : List Str)
    (efs : List ((List (Str × List Entity)) × Option (List Relation))) :
    ∀ st : MergeSt, (∀ x ∈ st.relations, ¬ (x.confidence.getD (mkRat 1 2) < min_confidence)) →
      ∀ x ∈ (efs.foldl (mergeEntityFile min_confidence entity_types) st).relations,
        ¬ (x.confidence.getD (mkRat 1 2) < min_confidence) := by
  induction efs with
  | nil => intro st h; exact h
  | cons ef rest ih =>
    intro st h
    exact ih _ (mergeEntityFile_conf_inv min_confidence entity_types st ef h)

/-- C6: for every list of input fragments and every `min_confidence`, no
relation whose confidence (with a missing `confidence` field read as `0.5`)
is below `min_confidence` appears in the merged output. -/
theorem C6_confidence_filter (kgs : List KGFragment)
    (entity_files : List ((List (Str × List Entity)) × Option (List Relation)))
    (min_confidence : Rat) (max_entities : Nat) (entity_types : List Str) :
    ∀ r ∈ (merge_kg_data kgs entity_files min_confidence max_entities entity_types).relations,
      ¬ (r.confidence.getD (mkRat 1 2) < min_confidence) := by
  have hrw : (merge_kg_data kgs entity_files min_confidence max_entities entity_types).relations =
      (entity_files.foldl (mergeEntityFile min_confidence entity_types)
        (kgs.foldl (mergeFragment min_confidence entity_types) ⟨[], [], []⟩)).relations := rfl
  rw [hrw]
  apply efsFold_conf_inv
  apply kgsFold_conf_inv
  intro x hx
  cases hx

/-- Witness for C6: a single fragment with one relation of confidence `0.9`
merged at `min_confidence = 0.5`; the relation is kept and its confidence is
not below the threshold. -/
theorem C6_confidence_filter_witness :
    (⟨some ⟨some "IL-6".toList, some "Gene".toList⟩,
      some ⟨some "矽肺".toList, some "Disease".toList⟩,
      some "相关".toList, some (mkRat 9 10)⟩ : Relation) ∈
      (merge_kg_data
        [⟨[], [⟨some ⟨some "IL-6".toList, some "Gene".toList⟩,
               some ⟨some "矽肺".toList, some "Disease".toList⟩,
               some "相关".toList, some (mkRat 9 10)⟩]⟩] [] (mkRat 1 2) 0 []).relations ∧
    ¬ ((⟨some ⟨some "IL-6".toList, some "Gene".toList⟩,
        some ⟨some "矽肺".toList, some "Disease".toList⟩,
        some "相关".toList, some (mkRat 9 10)⟩ : Relation).confidence.getD (mkRat 1 2) < (mkRat 1 2)) :=
  ⟨by decide,
   C6_confidence_filter
     [⟨[], [⟨some ⟨some "IL-6".toList, some "Gene".toList⟩,
            some ⟨some "矽肺".toList, some "Disease".toList⟩,
            some "相关".toList, some (mkRat 9 10)⟩]⟩] [] (mkRat 1 2) 0 [] _ (by decide)⟩

/-- C1 (amended): merging the same fragment twice yields exactly the same
relation list as merging it once, and the same entity keys (types and
normalized texts, in order) — but *not* the same `occurrences` values,
which the counterexample below shows are summed.  Stated for `max_entities
= 0` (the CLI default, no per-type cap) and arbitrary `min_confidence` /
`entity_types`. -/
theorem C1_merge_same_fragment_twice (F : KGFragment) (min_confidence : Rat)
    (entity_types : List Str) :
    (merge_kg_data [F, F] [] min_confidence 0 entity_types).relations =
      (merge_kg_data [F] [] min_confidence 0 entity_types).relations ∧
    entKeysProj (merge_kg_data [F, F] [] min_confidence 0 entity_types).entities =
      entKeysProj (merge_kg_data [F] [] min_confidence 0 entity_types).entities := by
  have hcap : ∀ es : List (Str × List Entity), capEntities 0 es = es := by
    intro es
    simp [capEntities]
  have e1 : merge_kg_data [F] [] min_confidence 0 entity_types =
      ⟨capEntities 0 (mergeFragment min_confidence entity_types ⟨[], [], []⟩ F).entities,
       (mergeFragment min_confidence entity_types ⟨[], [], []⟩ F).relations⟩ := rfl
  have e2 : merge_kg_data [F, F] [] min_confidence 0 entity_types =
      ⟨capEntities 0 (mergeFragment min_confidence entity_types
          (mergeFragment min_confidence entity_types ⟨[], [], []⟩ F) F).entities,
       (mergeFragment min_confidence entity_types
          (mergeFragment min_confidence entity_types ⟨[], [], []⟩ F) F).relations⟩ := rfl
  rw [e1, e2, hcap, hcap]
  set st0 : MergeSt := (⟨[], [], []⟩ : MergeSt) with hst0
  set st1 := mergeFragment min_confidence entity_types st0 F with hst1
  constructor
  · -- relations: the second pass adds nothing because every passing
    -- relation's dedup key was recorded by the first pass
    have hkeys : st1.keys =
        (F.relations.foldl (relStep min_confidence entity_types)
          (st0.relations, st0.keys)).2 := rfl
    have hnoop : F.relations.foldl (relStep min_confidence entity_types)
        (st1.relations, st1.keys) = (st1.relations, st1.keys) := by
      apply relFold_noop
      intro r hr hp
      rw [hkeys]
      exact relFold_establishes min_confidence entity_types F.relations
        st0.relations st0.keys r hr hp
    have hrw : (mergeFragment min_confidence entity_types st1 F).relations =
        (F.relations.foldl (relStep min_confidence entity_types)
          (st1.relations, st1.keys)).1 := rfl
    rw [hrw, hnoop]
  · -- entities: every non-skipped entity's key is present after the first
    -- pass, so the second pass only accumulates occurrences
    have hrwe : (mergeFragment min_confidence entity_types st1 F).entities =
        mergeEntitiesPass entity_types st1.entities F.entities := rfl
    rw [hrwe]
    apply mergeEntitiesPass_keysProj
    intro g hg hsk
    have hst1e : st1.entities = mergeEntitiesPass entity_types st0.entities F.entities := rfl
    have hest := mergeEntitiesPass_establishes entity_types F.entities st0.entities g hg hsk
    rw [hst1e]
    refine ⟨hest.1, ?_⟩
    intro e he
    by_cases hn : (normalize_entity_text e.text).isEmpty = true
    · exact Or.inl hn
    · exact Or.inr (hest.2 e he hn)

/-- C1 counterexample: the spec's own example fragment — one `Disease`
entity `"矽肺"` with `occurrences = 3` — merged as `[F, F]` produces
`occurrences = 6`, not `3`, so `merge([F]) == merge([F, F])` is false as
stated. -/
theorem C1_merge_idempotence_counterexample :
    (merge_kg_data [⟨[("Disease".toList, [⟨some "矽肺".toList, some 3⟩])], []⟩,
                    ⟨[("Disease".toList, [⟨some "矽肺".toList, some 3⟩])], []⟩] [] 0 0 []).entities =
      [("Disease".toList, [⟨some "矽肺".toList, some 6⟩])] ∧
    (merge_kg_data [⟨[("Disease".toList, [⟨some "矽肺".toList, some 3⟩])], []⟩] [] 0 0 []).entities =
      [("Disease".toList, [⟨some "矽肺".toList, some 3⟩])] ∧
    merge_kg_data [⟨[("Disease".toList, [⟨some "矽肺".toList, some 3⟩])], []⟩,
                   ⟨[("Disease".toList, [⟨some "矽肺".toList, some 3⟩])], []⟩] [] 0 0 [] ≠
      merge_kg_data [⟨[("Disease".toList, [⟨some "矽肺".toList, some 3⟩])], []⟩] [] 0 0 [] :=
  ⟨by decide, by decide, by decide⟩

theorem lookupType_of_mem_nodup (es : List (Str × List Entity)) (p : Str × List Entity)
    (hmem : p ∈ es) (hnd : (es.map Prod.fst).Nodup) : lookupType es p.1 = p.2 := by
  induction es with
  | nil => cases hmem
  | cons q rest ih =>
    rw [List.map_cons, List.nodup_cons] at hnd
    rcases List.mem_cons.mp hmem with rfl | hmem'
    · unfold lookupType
      rw [List.find?_cons_of_pos _ (by simp)]
    · have hne : ¬ ((q.1 == p.1) = true) := by
        rw [beq_iff_eq]
        intro hq
        apply hnd.1
        rw [hq]
        exact List.mem_map.mpr ⟨p, hmem', rfl⟩
      unfold lookupType
      rw [List.find?_cons_of_neg _ (by simpa using hne)]
      exact ih hmem' hnd.2

theorem entStep_nodup (ty : Str) (es : List (Str × List Entity)) (e : Entity)
    (hkeys : (es.map Prod.fst).Nodup)
    (hinv : ∀ p ∈ es, (p.2.map (fun x => normalize_entity_text x.text)).Nodup) :
    ∀ p ∈ entStep ty es e, (p.2.map (fun x => normalize_entity_text x.text)).Nodup := by
  rw [entStep_eq]
  split
  · exact hinv
  · split
    · -- occurrence update: normalized texts unchanged
      intro p hp
      unfold updateTypeList at hp
      rcases List.mem_map.mp hp with ⟨q, hq, heq⟩
      by_cases h : q.1 == ty
      · rw [← heq, if_pos h]
        simpa [updateFirstEntity_norm_map] using hinv q hq
      · rw [← heq, if_neg h]
        exact hinv q hq
    · -- new entity appended: its normalized text was absent
      rename_i hne hpres
      intro p hp
      unfold updateTypeList at hp
      rcases List.mem_map.mp hp with ⟨q, hq, heq⟩
      by_cases h : q.1 == ty
      · have hqty : q.1 = ty := by simpa [beq_iff_eq] using h
        have hq2 : lookupType es ty = q.2 := by
          rw [← hqty]
          exact lookupType_of_mem_nodup es q hq hkeys
        have hnotin : normalize_entity_text e.text ∉
            q.2.map (fun x => normalize_entity_text x.text) := by
          intro hmem
          apply hpres
          unfold entKeyPresent
          rw [hq2, List.any_eq_true]
          rcases List.mem_map.mp hmem with ⟨x, hx, hxe⟩
          exact ⟨x, hx, by rw [hxe]; simp⟩
        rw [← heq, if_pos h]
        simp only [List.map_append, List.map_cons, List.map_nil]
        rw [List.nodup_append]
        refine ⟨hinv q hq, by simp, ?_⟩
        intro a ha hb
        simp only [List.mem_singleton] at hb
        subst hb
        exact hnotin ha
      · rw [← heq, if_neg h]
        exact hinv q hq

theorem ensureType_keys_nodup (es : List (Str × List Entity)) (ty : Str)
    (h : (es.map Prod.fst).Nodup) : ((ensureType es ty).map Prod.fst).Nodup := by
  unfold ensureType
  split
  · exact h
  · rename_i hany
    rw [List.map_append]
    rw [List.nodup_append]
    refine ⟨h, by simp, ?_⟩
    intro a ha hb
    simp only [List.map_cons, List.map_nil, List.mem_singleton] at hb
    subst hb
    rcases List.mem_map.mp ha with ⟨p, hp, hpa⟩
    apply hany
    rw [List.any_eq_true]
    exact ⟨p, hp, by rw [beq_iff_eq, hpa]⟩

theorem ensureType_nodup_inv (es : List (Str × List Entity)) (ty : Str)
    (hinv : ∀ p ∈ es, (p.2.map (fun x => normalize_entity_text x.text)).Nodup) :
    ∀ p ∈ ensureType es ty, (p.2.map (fun x => normalize_entity_text x.text)).Nodup := by
  unfold ensureType
  split
  · exact hinv
  · intro p hp
    rcases List.mem_append.mp hp with hp | hp
    · exact hinv p hp
    · simp only [List.mem_singleton] at hp
      subst hp
      simp

theorem entFold_keys (ty : Str) (group : List Entity) :
    ∀ es, (group.foldl (entStep ty) es).map Prod.fst = es.map Prod.fst := by
  induction group with
  | nil => intro es; rfl
  | cons e rest ih =>
    intro es
    simp only [List.foldl_cons]
    rw [ih (entStep ty es e), entStep_keys]

theorem entFold_nodup (ty : Str) (group : List Entity) :
    ∀ es, (es.map Prod.fst).Nodup →
      (∀ p ∈ es, (p.2.map (fun x => normalize_entity_text x.text)).Nodup) →
      ∀ p ∈ group.foldl (entStep ty) es,
        (p.2.map (fun x => normalize_entity_text x.text)).Nodup := by
  induction group with
  | nil => intro es _ hinv; exact hinv
  | cons e rest ih =>
    intro es hkeys hinv
    simp only [List.foldl_cons]
    exact ih (entStep ty es e) (by rw [entStep_keys]; exact hkeys)
      (entStep_nodup ty es e hkeys hinv)

theorem mergeEntityGroup_keys_nodup (ets : List Str) (es : List (Str × List Entity))
    (ty : Str) (group : List Entity) (h : (es.map Prod.fst).Nodup) :
    ((mergeEntityGroup ets es ty group).map Prod.fst).Nodup := by
  unfold mergeEntityGroup
  split
  · exact h
  · rw [entFold_keys]
    exact ensureType_keys_nodup es ty h

theorem mergeEntityGroup_nodup (ets : List Str) (es : List (Str × List Entity))
    (ty : Str) (group : List Entity) (hkeys : (es.map Prod.fst).Nodup)
    (hinv : ∀ p ∈ es, (p.2.map (fun x => normalize_entity_text x.text)).Nodup) :
    ∀ p ∈ mergeEntityGroup ets es ty group,
      (p.2.map (fun x => normalize_entity_text x.text)).Nodup := by
  unfold mergeEntityGroup
  split
  · exact hinv
  · exact entFold_nodup ty group (ensureType es ty) (ensureType_keys_nodup es ty hkeys)
      (ensureType_nodup_inv es ty hinv)

theorem mergeEntitiesPass_nodup (ets : List Str) (groups : List (Str × List Entity)) :
    ∀ es, (es.map Prod.fst).Nodup →
      (∀ p ∈ es, (p.2.map (fun x => normalize_entity_text x.text)).Nodup) →
      ((mergeEntitiesPass ets es groups).map Prod.fst).Nodup ∧
      ∀ p ∈ mergeEntitiesPass ets es groups,
        (p.2.map (fun x => normalize_entity_text x.text)).Nodup := by
  induction groups with
  | nil => intro es hkeys hinv; exact ⟨hkeys, hinv⟩
  | cons g gs ih =>
    intro es hkeys hinv
    have hunf : mergeEntitiesPass ets es (g :: gs) =
        mergeEntitiesPass ets (mergeEntityGroup ets es g.1 g.2) gs := rfl
    rw [hunf]
    exact ih (mergeEntityGroup ets es g.1 g.2)
      (mergeEntityGroup_keys_nodup ets es g.1 g.2 hkeys)
      (mergeEntityGroup_nodup ets es g.1 g.2 hkeys hinv)

theorem capEntities_nodup (max_entities : Nat) (es : List (Str × List Entity))
    (hinv : ∀ p ∈ es, (p.2.map (fun x => normalize_entity_text x.text)).Nodup) :
    ∀ p ∈ capEntities max_entities es,
      (p.2.map (fun x => normalize_entity_text x.text)).Nodup := by
  unfold capEntities
  split
  · intro p hp
    rcases List.mem_map.mp hp with ⟨q, hq, heq⟩
    rw [← heq]
    have hperm : ((q.2.mergeSort
          (fun a b => decide (b.occurrences.getD 1 ≤ a.occurrences.getD 1))).map
        (fun x => normalize_entity_text x.text)).Perm
        (q.2.map (fun x => normalize_entity_text x.text)) :=
      (List.mergeSort_perm q.2 _).map _
    have hnd : ((q.2.mergeSort
          (fun a b => decide (b.occurrences.getD 1 ≤ a.occurrences.getD 1))).map
        (fun x => normalize_entity_text x.text)).Nodup :=
      hperm.symm.nodup (hinv q hq)
    have hsub := (List.take_sublist max_entities
      (q.2.mergeSort (fun a b => decide (b.occurrences.getD 1 ≤ a.occurrences.getD 1)))).map
      (fun x => normalize_entity_text x.text)
    exact List.Nodup.sublist hsub hnd
  · exact hinv

theorem kgsFold_nodup (min_confidence : Rat) (entity_types : List Str)
    (kgs : List KGFragment) :
    ∀ st : MergeSt, (st.entities.map Prod.fst).Nodup →
      (∀ p ∈ st.entities, (p.2.map (fun x => normalize_entity_text x.text)).Nodup) →
      (((kgs.foldl (mergeFragment min_confidence entity_types) st).entities.map
          Prod.fst).Nodup) ∧
      ∀ p ∈ (kgs.foldl (mergeFragment min_confidence entity_types) st).entities,
        (p.2.map (fun x => normalize_entity_text x.text)).Nodup := by
  induction kgs with
  | nil => intro st h1 h2; exact ⟨h1, h2⟩
  | cons d rest ih =>
    intro st h1 h2
    have hrw : (mergeFragment min_confidence entity_types st d).entities =
        mergeEntitiesPass entity_types st.entities d.entities := rfl
    have h := mergeEntitiesPass_nodup entity_types d.entities st.entities h1 h2
    exact ih (mergeFragment min_confidence entity_types st d)
      (by rw [hrw]; exact h.1) (by rw [hrw]; exact h.2)

theorem efsFold_nodup (min_confidence : Rat) (entity_types : List Str)
    (efs : List ((List (Str × List Entity)) × Option (List Relation))) :
    ∀ st : MergeSt, (st.entities.map Prod.fst).Nodup →
      (∀ p ∈ st.entities, (p.2.map (fun x => normalize_entity_text x.text)).Nodup) →
      (((efs.foldl (mergeEntityFile min_confidence entity_types) st).entities.map
          Prod.fst).Nodup) ∧
      ∀ p ∈ (efs.foldl (mergeEntityFile min_confidence entity_types) st).entities,
        (p.2.map (fun x => normalize_entity_text x.text)).Nodup := by
  induction efs with
  | nil => intro st h1 h2; exact ⟨h1, h2⟩
  | cons ef rest ih =>
    intro st h1 h2
    have hrw : (mergeEntityFile min_confidence entity_types st ef).entities =
        mergeEntitiesPass entity_types st.entities ef.1 := by
      obtain ⟨egroups, orels⟩ := ef
      cases orels <;> rfl
    have h := mergeEntitiesPass_nodup entity_types ef.1 st.entities h1 h2
    exact ih (mergeEntityFile min_confidence entity_types st ef)
      (by rw [hrw]; exact h.1) (by rw [hrw]; exact h.2)

/-- C5: in the merged entities map no two entities within the same type's
list share a normalized text — each `(normalized_text, entity_type)` pair
appears at most once, across both complete knowledge-graph fragments and
split `entities.json` fragments. -/
theorem C5_merged_entity_uniqueness (kgs : List KGFragment)
    (entity_files : List ((List (Str × List Entity)) × Option (List Relation)))
    (min_confidence : Rat) (max_entities : Nat) (entity_types : List Str) :
    ∀ p ∈ (merge_kg_data kgs entity_files min_confidence max_entities entity_types).entities,
      (p.2.map (fun e => normalize_entity_text e.text)).Nodup := by
  have hrw : (merge_kg_data kgs entity_files min_confidence max_entities entity_types).entities =
      capEntities max_entities
        ((entity_files.foldl (mergeEntityFile min_confidence entity_types)
          (kgs.foldl (mergeFragment min_confidence entity_types) ⟨[], [], []⟩)).entities) := rfl
  rw [hrw]
  apply capEntities_nodup
  have h1 := kgsFold_nodup min_confidence entity_types kgs ⟨[], [], []⟩
    (by simp) (by intro p hp; cases hp)
  exact (efsFold_nodup min_confidence entity_types entity_files _ h1.1 h1.2).2

/-- Witness for C5: the merged map of a concrete fragment contains the
`Disease` entry, whose normalized-text list is duplicate-free. -/
theorem C5_merged_entity_uniqueness_witness :
    (("Disease".toList, [(⟨some "矽肺".toList, some 3⟩ : Entity)]) ∈
      (merge_kg_data [⟨[("Disease".toList, [⟨some "矽肺".toList, some 3⟩])], []⟩]
        [] 0 0 []).entities) ∧
    (([(⟨some "矽肺".toList, some 3⟩ : Entity)].map
        (fun e => normalize_entity_text e.text)).Nodup) :=
  ⟨by decide,
   C5_merged_entity_uniqueness
     [⟨[("Disease".toList, [⟨some "矽肺".toList, some 3⟩])], []⟩] [] 0 0 []
     ("Disease".toList, [(⟨some "矽肺".toList, some 3⟩ : Entity)]) (by decide)⟩

/-! ## Graph builder properties (C7, C10) -/

theorem relEdgeStep_eq (nodes : List BNode) (edges : List BEdge) (r : Relation) :
    relEdgeStep nodes edges r =
      (if ((relSourceText r).isEmpty || (relTargetText r).isEmpty ||
           (r.relation.getD []).isEmpty) = true then edges
       else if (!hasNodeL nodes (relSourceText r) ||
                !hasNodeL nodes (relTargetText r)) = true then edges
       else edges ++ [⟨relSourceText r, relTargetText r, r.relation.getD [],
                       r.confidence.getD (mkRat 1 2)⟩]) := rfl

theorem relEdgeStep_valid (nodes : List BNode) (edges : List BEdge) (r : Relation)
    (h : ∀ e ∈ edges, hasNodeL nodes e.source = true ∧ hasNodeL nodes e.target = true) :
    ∀ e ∈ relEdgeStep nodes edges r,
      hasNodeL nodes e.source = true ∧ hasNodeL nodes e.target = true := by
  rw [relEdgeStep_eq]
  split
  · exact h
  · split
    · exact h
    · rename_i h1 h2
      intro e he
      rcases List.mem_append.mp he with he | he
      · exact h e he
      · simp only [List.mem_singleton] at he
        subst he
        simp only [Bool.or_eq_true, Bool.not_eq_true'] at h2
        push_neg at h2
        exact ⟨by simpa using h2.1, by simpa using h2.2⟩

theorem relEdgeStep_mem_mono (nodes : List BNode) (edges : List BEdge) (r : Relation)
    (e : BEdge) (h : e ∈ edges) : e ∈ relEdgeStep nodes edges r := by
  rw [relEdgeStep_eq]
  split
  · exact h
  · split
    · exact h
    · exact List.mem_append.mpr (Or.inl h)

theorem edgeFold_mem_mono (nodes : List BNode) (rs : List Relation) :
    ∀ edges e, e ∈ edges → e ∈ rs.foldl (relEdgeStep nodes) edges := by
  induction rs with
  | nil => intro edges e h; exact h
  | cons r rest ih =>
    intro edges e h
    exact ih _ e (relEdgeStep_mem_mono nodes edges r e h)

theorem edgeFold_valid (nodes : List BNode) (rs : List Relation) :
    ∀ edges, (∀ e ∈ edges, hasNodeL nodes e.source = true ∧ hasNodeL nodes e.target = true) →
      ∀ e ∈ rs.foldl (relEdgeStep nodes) edges,
        hasNodeL nodes e.source = true ∧ hasNodeL nodes e.target = true := by
  induction rs with
  | nil => intro edges h; exact h
  | cons r rest ih =>
    intro edges h
    exact ih _ (relEdgeStep_valid nodes edges r h)

theorem edgeFold_adds (nodes : List BNode) (rs : List Relation) :
    ∀ edges r, r ∈ rs →
      ¬ (relSourceText r).isEmpty = true → ¬ (relTargetText r).isEmpty = true →
      ¬ (r.relation.getD []).isEmpty = true →
      hasNodeL nodes (relSourceText r) = true → hasNodeL nodes (relTargetText r) = true →
      (⟨relSourceText r, relTargetText r, r.relation.getD [],
        r.confidence.getD (mkRat 1 2)⟩ : BEdge) ∈ rs.foldl (relEdgeStep nodes) edges := by
  induction rs with
  | nil => intro edges r hr; cases hr
  | cons x rest ih =>
    intro edges r hr h1 h2 h3 h4 h5
    rcases List.mem_cons.mp hr with rfl | hr'
    · have hmem : (⟨relSourceText r, relTargetText r, r.relation.getD [],
          r.confidence.getD (mkRat 1 2)⟩ : BEdge) ∈ relEdgeStep nodes edges r := by
        rw [relEdgeStep_eq]
        rw [if_neg (by simp [h1, h2, h3]), if_neg (by simp [h4, h5])]
        exact List.mem_append.mpr (Or.inr (by simp))
      exact edgeFold_mem_mono nodes rest _ _ hmem
    · exact ih (relEdgeStep nodes edges x) r hr' h1 h2 h3 h4 h5

theorem entNodeStep_eq (ty : Str) (nodes : List BNode) (e : BEntity) :
    entNodeStep ty nodes e =
      (if (entityText e).isEmpty = true then nodes
       else if hasNodeL nodes (entityText e) = true then nodes
       else nodes ++ [⟨entityText e, ty, entityText e, e.occurrences.getD 1⟩]) := rfl

theorem entNodeStep_nonempty (ty : Str) (nodes : List BNode) (e : BEntity)
    (h : ∀ n ∈ nodes, ¬ n.id = []) : ∀ n ∈ entNodeStep ty nodes e, ¬ n.id = [] := by
  rw [entNodeStep_eq]
  split
  · exact h
  · split
    · exact h
    · rename_i hne _
      intro n hn
      rcases List.mem_append.mp hn with hn | hn
      · exact h n hn
      · simp only [List.mem_singleton] at hn
        subst hn
        intro hid
        exact hne (by simpa [List.isEmpty_iff] using hid)

theorem entNodeFold_nonempty (ty : Str) (es : List BEntity) :
    ∀ nodes, (∀ n ∈ nodes, ¬ n.id = []) →
      ∀ n ∈ es.foldl (entNodeStep ty) nodes, ¬ n.id = [] := by
  induction es with
  | nil => intro nodes h; exact h
  | cons e rest ih =>
    intro nodes h
    exact ih _ (entNodeStep_nonempty ty nodes e h)

theorem buildNodes_nonempty (d : BFragment) : ∀ n ∈ (build_graph d).nodes, ¬ n.id = [] := by
  have hrw : (build_graph d).nodes =
      d.entities.foldl (fun ns g => g.2.foldl (entNodeStep g.1) ns) [] := rfl
  rw [hrw]
  have : ∀ (groups : List (Str × List BEntity)) (ns : List BNode),
      (∀ n ∈ ns, ¬ n.id = []) →
      ∀ n ∈ groups.foldl (fun ns g => g.2.foldl (entNodeStep g.1) ns) ns, ¬ n.id = [] := by
    intro groups
    induction groups with
    | nil => intro ns h; exact h
    | cons g gs ih =>
      intro ns h
      exact ih _ (entNodeFold_nonempty g.1 g.2 ns h)
  exact this d.entities [] (by intro n hn; cases hn)

theorem hasNodeL_nonempty (nodes : List BNode) (x : Str)
    (hn : ∀ n ∈ nodes, ¬ n.id = []) (h : hasNodeL nodes x = true) : ¬ x = [] := by
  unfold hasNodeL at h
  rw [List.any_eq_true] at h
  rcases h with ⟨n, hmem, hid⟩
  have hx : n.id = x := by simpa [beq_iff_eq] using hid
  rw [← hx]
  exact hn n hmem

/-- C7 (amended): in a built graph every edge joins two existing nodes (so a
relation with a missing endpoint contributes zero edges, and the build
never fails), and for every relation whose `relation` label is non-empty,
an edge with that relation's endpoint texts exists iff both texts are
present as nodes.  The label-non-empty proviso is forced by the
counterexample: the source also skips relations with an empty label. -/
theorem C7_graph_edge_validity (d : BFragment) :
    (∀ e ∈ (build_graph d).edges,
      hasNodeL (build_graph d).nodes e.source = true ∧
      hasNodeL (build_graph d).nodes e.target = true) ∧
    ∀ r ∈ d.relations, ¬ (r.relation.getD []).isEmpty = true →
      ((∃ e ∈ (build_graph d).edges,
          e.source = relSourceText r ∧ e.target = relTargetText r) ↔
        (hasNodeL (build_graph d).nodes (relSourceText r) = true ∧
         hasNodeL (build_graph d).nodes (relTargetText r) = true)) := by
  have hedges : (build_graph d).edges =
      d.relations.foldl (relEdgeStep (build_graph d).nodes) [] := rfl
  have hvalid : ∀ e ∈ (build_graph d).edges,
      hasNodeL (build_graph d).nodes e.source = true ∧
      hasNodeL (build_graph d).nodes e.target = true := by
    rw [hedges]
    exact edgeFold_valid (build_graph d).nodes d.relations [] (by intro e he; cases he)
  refine ⟨hvalid, ?_⟩
  intro r hr hlbl
  constructor
  · rintro ⟨e, he, hes, het⟩
    have h := hvalid e he
    rw [hes, het] at h
    exact h
  · rintro ⟨hs, ht⟩
    have hne := buildNodes_nonempty d
    have hs' : ¬ (relSourceText r).isEmpty = true := by
      rw [List.isEmpty_iff]
      exact hasNodeL_nonempty _ _ hne hs
    have ht' : ¬ (relTargetText r).isEmpty = true := by
      rw [List.isEmpty_iff]
      exact hasNodeL_nonempty _ _ hne ht
    refine ⟨⟨relSourceText r, relTargetText r, r.relation.getD [],
      r.confidence.getD (mkRat 1 2)⟩, ?_, rfl, rfl⟩
    rw [hedges]
    exact edgeFold_adds (build_graph d).nodes d.relations [] r hr hs' ht' hlbl hs ht

/-- C7 counterexample: a fragment whose single relation has an empty
`relation` label and two endpoints that *are* present as nodes produces
zero edges — so "an edge exists iff both endpoints are present as nodes"
is false as stated. -/
theorem C7_edge_iff_counterexample :
    (build_graph ⟨[("Gene".toList, [⟨some "a".toList, none, none⟩]),
                   ("Disease".toList, [⟨some "b".toList, none, none⟩])],
                  [⟨some ⟨some "a".toList, some "Gene".toList⟩,
                    some ⟨some "b".toList, some "Disease".toList⟩,
                    some [], some (mkRat 9 10)⟩]⟩).edges = [] ∧
    hasNodeL (build_graph ⟨[("Gene".toList, [⟨some "a".toList, none, none⟩]),
                   ("Disease".toList, [⟨some "b".toList, none, none⟩])],
                  [⟨some ⟨some "a".toList, some "Gene".toList⟩,
                    some ⟨some "b".toList, some "Disease".toList⟩,
                    some [], some (mkRat 9 10)⟩]⟩).nodes "a".toList = true ∧
    hasNodeL (build_graph ⟨[("Gene".toList, [⟨some "a".toList, none, none⟩]),
                   ("Disease".toList, [⟨some "b".toList, none, none⟩])],
                  [⟨some ⟨some "a".toList, some "Gene".toList⟩,
                    some ⟨some "b".toList, some "Disease".toList⟩,
                    some [], some (mkRat 9 10)⟩]⟩).nodes "b".toList = true :=
  ⟨by decide, by decide, by decide⟩

/-- Witness for C7: at a concrete fragment with a properly labelled
relation, the equivalence applied forwards produces the edge. -/
theorem C7_graph_edge_validity_witness :
    ((⟨some ⟨some "a".toList, some "Gene".toList⟩,
       some ⟨some "b".toList, some "Disease".toList⟩,
       some "相关".toList, some (mkRat 9 10)⟩ : Relation) ∈
      (⟨[("Gene".toList, [⟨some "a".toList, none, none⟩]),
         ("Disease".toList, [⟨some "b".toList, none, none⟩])],
        [⟨some ⟨some "a".toList, some "Gene".toList⟩,
          some ⟨some "b".toList, some "Disease".toList⟩,
          some "相关".toList, some (mkRat 9 10)⟩]⟩ : BFragment).relations) ∧
    ∃ e ∈ (build_graph ⟨[("Gene".toList, [⟨some "a".toList, none, none⟩]),
         ("Disease".toList, [⟨some "b".toList, none, none⟩])],
        [⟨some ⟨some "a".toList, some "Gene".toList⟩,
          some ⟨some "b".toList, some "Disease".toList⟩,
          some "相关".toList, some (mkRat 9 10)⟩]⟩).edges,
      e.source = relSourceText (⟨some ⟨some "a".toList, some "Gene".toList⟩,
          some ⟨some "b".toList, some "Disease".toList⟩,
          some "相关".toList, some (mkRat 9 10)⟩ : Relation) ∧
      e.target = relTargetText (⟨some ⟨some "a".toList, some "Gene".toList⟩,
          some ⟨some "b".toList, some "Disease".toList⟩,
          some "相关".toList, some (mkRat 9 10)⟩ : Relation) :=
  ⟨by decide,
   ((C7_graph_edge_validity ⟨[("Gene".toList, [⟨some "a".toList, none, none⟩]),
         ("Disease".toList, [⟨some "b".toList, none, none⟩])],
        [⟨some ⟨some "a".toList, some "Gene".toList⟩,
          some ⟨some "b".toList, some "Disease".toList⟩,
          some "相关".toList, some (mkRat 9 10)⟩]⟩).2
      (⟨some ⟨some "a".toList, some "Gene".toList⟩,
        some ⟨some "b".toList, some "Disease".toList⟩,
        some "相关".toList, some (mkRat 9 10)⟩ : Relation)
      (by decide) (by decide)).mpr ⟨by decide, by decide⟩⟩

theorem buildNodes_flat_aux (groups : List (Str × List BEntity)) :
    ∀ ns, groups.foldl (fun ns g => g.2.foldl (entNodeStep g.1) ns) ns =
      (flatEntsGroups groups).foldl (fun ns q => entNodeStep q.1 ns q.2) ns := by
  induction groups with
  | nil => intro ns; rfl
  | cons g gs ih =>
    intro ns
    simp only [List.foldl_cons, flatEntsGroups]
    rw [List.foldl_append, List.foldl_map, ih]

theorem hasNodeL_append_mono (ns : List BNode) (more : List BNode) (x : Str)
    (h : hasNodeL ns x = true) : hasNodeL (ns ++ more) x = true := by
  unfold hasNodeL at h ⊢
  rw [List.any_append, h]
  rfl

theorem nodeFold_inv (rest : List (Str × BEntity)) :
    ∀ processed ns, nodeProp processed ns →
      nodeProp (processed ++ rest) (rest.foldl (fun ns q => entNodeStep q.1 ns q.2) ns) := by
  induction rest with
  | nil => intro processed ns h; simpa using h
  | cons q0 rest' ih =>
    intro processed ns h
    obtain ⟨hnd, hmemP, hpres⟩ := h
    have hfindP : ∀ n ∈ ns,
        ∃ q, (processed ++ [q0]).find? (fun q => entityText q.2 == n.id) = some q ∧
          n.type = q.1 ∧ n.occurrences = q.2.occurrences.getD 1 := by
      intro n hn
      obtain ⟨_, _, q, hq, h3, h4⟩ := hmemP n hn
      refine ⟨q, ?_, h3, h4⟩
      rw [List.find?_append, hq]
      rfl
    have hstep : nodeProp (processed ++ [q0]) (entNodeStep q0.1 ns q0.2) := by
      rw [entNodeStep_eq]
      split
      · rename_i hemp
        refine ⟨hnd, ?_, ?_⟩
        · intro n hn
          obtain ⟨h1, h2, _, _, _⟩ := hmemP n hn
          exact ⟨h1, h2, hfindP n hn⟩
        · intro q hq hqe
          rcases List.mem_append.mp hq with hq | hq
          · exact hpres q hq hqe
          · simp only [List.mem_singleton] at hq
            subst hq
            exact absurd hemp hqe
      · rename_i hemp
        split
        · rename_i hhas
          refine ⟨hnd, ?_, ?_⟩
          · intro n hn
            obtain ⟨h1, h2, _, _, _⟩ := hmemP n hn
            exact ⟨h1, h2, hfindP n hn⟩
          · intro q hq hqe
            rcases List.mem_append.mp hq with hq | hq
            · exact hpres q hq hqe
            · simp only [List.mem_singleton] at hq
              subst hq
              exact hhas
        · rename_i hhas
          have hnotid : entityText q0.2 ∉ ns.map BNode.id := by
            intro hmem
            apply hhas
            rcases List.mem_map.mp hmem with ⟨n, hn, hid⟩
            unfold hasNodeL
            rw [List.any_eq_true]
            exact ⟨n, hn, by rw [hid]; simp⟩
          have hfind0 : processed.find? (fun q => entityText q.2 == entityText q0.2) = none := by
            rw [List.find?_eq_none]
            intro q hq hbeq
            have heq : entityText q.2 = entityText q0.2 := by simpa [beq_iff_eq] using hbeq
            apply hhas
            have hx := hpres q hq (by rw [heq]; exact hemp)
            rw [heq] at hx
            exact hx
          refine ⟨?_, ?_, ?_⟩
          · rw [List.map_append]
            rw [List.nodup_append]
            refine ⟨hnd, by simp, ?_⟩
            intro a ha hb
            simp only [List.map_cons, List.map_nil, List.mem_singleton] at hb
            subst hb
            exact hnotid ha
          · intro n hn
            rcases List.mem_append.mp hn with hn | hn
            · obtain ⟨h1, h2, _, _, _⟩ := hmemP n hn
              exact ⟨h1, h2, hfindP n hn⟩
            · simp only [List.mem_singleton] at hn
              subst hn
              refine ⟨?_, rfl, q0, ?_, rfl, rfl⟩
              · intro hid
                exact hemp (by simpa [List.isEmpty_iff] using hid)
              · rw [List.find?_append, hfind0]
                simp [List.find?]
          · intro q hq hqe
            rcases List.mem_append.mp hq with hq | hq
            · exact hasNodeL_append_mono ns _ _ (hpres q hq hqe)
            · simp only [List.mem_singleton] at hq
              subst hq
              unfold hasNodeL
              rw [List.any_append]
              simp
    have hassoc : processed ++ q0 :: rest' = (processed ++ [q0]) ++ rest' := by simp
    rw [hassoc]
    simp only [List.foldl_cons]
    exact ih (processed ++ [q0]) _ hstep

theorem relEdgeStep_endpoint_types (nodes : List BNode) (edges : List BEdge)
    (f g : Option Str → Option Str) (r : Relation) :
    relEdgeStep nodes edges
      { r with source := r.source.map (fun s => ⟨s.text, f s.type⟩),
               target := r.target.map (fun t => ⟨t.text, g t.type⟩) } =
      relEdgeStep nodes edges r := by
  obtain ⟨s, t, rel, conf⟩ := r
  cases s <;> cases t <;> rfl

theorem edgeFold_type_inv (nodes : List BNode) (f g : Option Str → Option Str)
    (rs : List Relation) :
    ∀ edges,
      (rs.map (fun r => { r with source := r.source.map (fun s => ⟨s.text, f s.type⟩),
                                 target := r.target.map (fun t => ⟨t.text, g t.type⟩) })).foldl
        (relEdgeStep nodes) edges = rs.foldl (relEdgeStep nodes) edges := by
  induction rs with
  | nil => intro edges; rfl
  | cons r rest ih =>
    intro edges
    simp only [List.map_cons, List.foldl_cons]
    rw [relEdgeStep_endpoint_types, ih]

/-- C10: `build_graph` collapses nodes by entity text alone: node ids are
distinct and non-empty, each node's `type` and `occurrences` come from the
*first* entity (in iteration order) whose text equals the node id (later
same-text entities are silently ignored), and the produced edges are
unchanged under any rewriting of the relations' declared endpoint types. -/
theorem C10_nodes_by_text_first_wins (d : BFragment) (f g : Option Str → Option Str) :
    ((build_graph d).nodes.map BNode.id).Nodup ∧
    (∀ n ∈ (build_graph d).nodes, ¬ n.id = [] ∧ n.label = n.id ∧
      ∃ q, (flatEnts d).find? (fun q => entityText q.2 == n.id) = some q ∧
        n.type = q.1 ∧ n.occurrences = q.2.occurrences.getD 1) ∧
    (build_graph (mapRelTypes f g d)).edges = (build_graph d).edges := by
  have hflat : (build_graph d).nodes =
      (flatEnts d).foldl (fun ns q => entNodeStep q.1 ns q.2) [] := by
    have hrw : (build_graph d).nodes =
        d.entities.foldl (fun ns g => g.2.foldl (entNodeStep g.1) ns) [] := rfl
    rw [hrw, buildNodes_flat_aux]
    rfl
  have hbase : nodeProp [] [] := by
    unfold nodeProp
    refine ⟨by simp, ?_, ?_⟩
    · intro n hn
      cases hn
    · intro q hq
      cases hq
  have hinv := nodeFold_inv (flatEnts d) [] [] hbase
  rw [List.nil_append] at hinv
  obtain ⟨h1, h2, _⟩ := hinv
  rw [hflat]
  refine ⟨h1, h2, ?_⟩
  have hn : (build_graph (mapRelTypes f g d)).nodes = (build_graph d).nodes := rfl
  have he : (build_graph (mapRelTypes f g d)).edges =
      ((mapRelTypes f g d).relations).foldl (relEdgeStep (build_graph d).nodes) [] := rfl
  have he2 : (build_graph d).edges =
      d.relations.foldl (relEdgeStep (build_graph d).nodes) [] := rfl
  rw [he, he2]
  exact edgeFold_type_inv (build_graph d).nodes f g d.relations []

/-- Witness for C10: two entities with the same text `"a"` but different
types and occurrences produce a single node that keeps the first entity's
type `"Gene"` and occurrences `2`. -/
theorem C10_nodes_by_text_first_wins_witness :
    ((⟨"a".toList, "Gene".toList, "a".toList, 2⟩ : BNode) ∈
      (build_graph ⟨[("Gene".toList, [⟨some "a".toList, none, some 2⟩]),
                     ("Disease".toList, [⟨some "a".toList, none, some 7⟩])], []⟩).nodes) ∧
    (¬ (⟨"a".toList, "Gene".toList, "a".toList, 2⟩ : BNode).id = [] ∧
     (⟨"a".toList, "Gene".toList, "a".toList, 2⟩ : BNode).label =
       (⟨"a".toList, "Gene".toList, "a".toList, 2⟩ : BNode).id ∧
     ∃ q, (flatEnts ⟨[("Gene".toList, [⟨some "a".toList, none, some 2⟩]),
                      ("Disease".toList, [⟨some "a".toList, none, some 7⟩])], []⟩).find?
         (fun q => entityText q.2 == (⟨"a".toList, "Gene".toList, "a".toList, 2⟩ : BNode).id) =
           some q ∧
       (⟨"a".toList, "Gene".toList, "a".toList, 2⟩ : BNode).type = q.1 ∧
       (⟨"a".toList, "Gene".toList, "a".toList, 2⟩ : BNode).occurrences =
         q.2.occurrences.getD 1) :=
  ⟨by decide,
   (C10_nodes_by_text_first_wins
      ⟨[("Gene".toList, [⟨some "a".toList, none, some 2⟩]),
        ("Disease".toList, [⟨some "a".toList, none, some 7⟩])], []⟩
      (fun _ => none) (fun _ => none)).2.1
     ⟨"a".toList, "Gene".toList, "a".toList, 2⟩ (by decide)⟩

/-! ## Extraction-response validation (C2) -/

theorem jLookup_append_one (kvs : List (Str × JValue)) (x : Str × JValue) (k : Str) :
    jLookup (kvs ++ [x]) k =
      match jLookup kvs k with
      | some v => some v
      | none => if x.1 == k then some x.2 else none := by
  unfold jLookup
  rw [List.find?_append]
  cases hf : kvs.find? (fun p => p.1 == k) with
  | some p => rfl
  | none => cases hx : (x.1 == k) <;> simp [List.find?, hx]

/-- Helper: what the endpoint check `isinstance(entity, dict) and "text" in
entity and "type" in entity` guarantees about a passing value. -/
theorem entityFieldOk_spec (v : Option JValue) (h : entityFieldOk v = true) :
    ∃ ekvs, v = some (JValue.obj ekvs) ∧ (jLookup ekvs "text".toList).isSome = true ∧
      (jLookup ekvs "type".toList).isSome = true := by
  cases v with
  | none => exact absurd h (by simp [entityFieldOk])
  | some w =>
    cases w with
    | obj ekvs =>
      have h' : ((jLookup ekvs "text".toList).isSome
          && (jLookup ekvs "type".toList).isSome) = true := h
      rw [Bool.and_eq_true] at h'
      exact ⟨ekvs, rfl, h'.1, h'.2⟩
    | null => exact absurd h (by simp [entityFieldOk])
    | bool b => exact absurd h (by simp [entityFieldOk])
    | num q => exact absurd h (by simp [entityFieldOk])
    | str s => exact absurd h (by simp [entityFieldOk])
    | arr l => exact absurd h (by simp [entityFieldOk])

/-- C2 (amended): every relation kept by `_parse_response`'s validation
comes from a candidate dict with `source`, `target` and `relation` keys
whose endpoint values are dicts containing `text` and `type` and whose
`relation` value is a string in `allowed_relation_types`; the kept
relation is that dict with `confidence` preserved when present and set to
exactly `0.5` when missing.  The confidence's *value* is never
range-checked, as the counterexample shows. -/
theorem C2_parse_response_validation (allowed : List Str) (v : JValue) :
    ∀ r ∈ parse_response allowed v,
      ∃ kvs kvs', JValue.obj kvs ∈ relationCandidates v ∧
        kvs' = (if (jLookup kvs "confidence".toList).isSome then kvs
                else kvs ++ [("confidence".toList, JValue.num (mkRat 1 2))]) ∧
        r = JValue.obj kvs' ∧
        (∃ skvs, jLookup kvs "source".toList = some (JValue.obj skvs) ∧
          (jLookup skvs "text".toList).isSome = true ∧
          (jLookup skvs "type".toList).isSome = true) ∧
        (∃ tkvs, jLookup kvs "target".toList = some (JValue.obj tkvs) ∧
          (jLookup tkvs "text".toList).isSome = true ∧
          (jLookup tkvs "type".toList).isSome = true) ∧
        (∃ s, jLookup kvs' "relation".toList = some (JValue.str s) ∧ s ∈ allowed) ∧
        ((jLookup kvs "confidence".toList).isSome = true →
          jLookup kvs' "confidence".toList = jLookup kvs "confidence".toList) ∧
        (jLookup kvs "confidence".toList = none →
          jLookup kvs' "confidence".toList = some (JValue.num (mkRat 1 2))) := by
  intro r hr
  unfold parse_response at hr
  rw [List.mem_filterMap] at hr
  rcases hr with ⟨c, hcmem, hval⟩
  unfold validateRelation at hval
  cases c with
  | null => exact absurd hval (by simp)
  | bool b => exact absurd hval (by simp)
  | num q => exact absurd hval (by simp)
  | str s => exact absurd hval (by simp)
  | arr l => exact absurd hval (by simp)
  | obj kvs =>
    have hval2 : (if ((jLookup kvs "source".toList).isSome && (jLookup kvs "target".toList).isSome
          && (jLookup kvs "relation".toList).isSome) = true then
        if (entityFieldOk (jLookup kvs "source".toList)
            && entityFieldOk (jLookup kvs "target".toList)) = true then
          (match jLookup (if (jLookup kvs "confidence".toList).isSome = true then kvs
              else kvs ++ [("confidence".toList, JValue.num (mkRat 1 2))]) "relation".toList with
           | some (JValue.str s) =>
             if allowed.contains s = true then
               some (JValue.obj (if (jLookup kvs "confidence".toList).isSome = true then kvs
                 else kvs ++ [("confidence".toList, JValue.num (mkRat 1 2))]))
             else none
           | _ => none)
        else none
      else none) = some r := hval
    clear hval
    rename' hval2 => hval
    by_cases h1 : ((jLookup kvs "source".toList).isSome && (jLookup kvs "target".toList).isSome
        && (jLookup kvs "relation".toList).isSome) = true
    · by_cases h2 : (entityFieldOk (jLookup kvs "source".toList)
          && entityFieldOk (jLookup kvs "target".toList)) = true
      · rw [if_pos h1, if_pos h2] at hval
        rw [Bool.and_eq_true] at h2
        set K := if (jLookup kvs "confidence".toList).isSome then kvs
                 else kvs ++ [("confidence".toList, JValue.num (mkRat 1 2))] with hK
        obtain ⟨skvs, hs1, hs2, hs3⟩ := entityFieldOk_spec _ h2.1
        obtain ⟨tkvs, ht1, ht2, ht3⟩ := entityFieldOk_spec _ h2.2
        have hconf1 : (jLookup kvs "confidence".toList).isSome = true →
            jLookup K "confidence".toList = jLookup kvs "confidence".toList := by
          intro hc
          rw [hK, if_pos hc]
        have hconf2 : jLookup kvs "confidence".toList = none →
            jLookup K "confidence".toList = some (JValue.num (mkRat 1 2)) := by
          intro hc
          rw [hK, if_neg (by rw [hc]; simp), jLookup_append_one, hc]
          simp
        rcases hrel : jLookup K "relation".toList with _ | w
        · rw [hrel] at hval
          simp at hval
        · cases w with
          | null => rw [hrel] at hval; simp at hval
          | bool b => rw [hrel] at hval; simp at hval
          | num q => rw [hrel] at hval; simp at hval
          | arr l => rw [hrel] at hval; simp at hval
          | obj kvs2 => rw [hrel] at hval; simp at hval
          | str s =>
            rw [hrel] at hval
            have hval3 : (if allowed.contains s = true then
                some (JValue.obj K) else none) = some r := hval
            by_cases h3 : allowed.contains s = true
            · rw [if_pos h3] at hval3
              rw [Option.some.injEq] at hval3
              subst hval3
              exact ⟨kvs, K, hcmem, hK, rfl, ⟨skvs, hs1, hs2, hs3⟩,
                ⟨tkvs, ht1, ht2, ht3⟩, ⟨s, hrel, by simpa using h3⟩, hconf1, hconf2⟩
            · rw [if_neg h3] at hval3
              simp at hval3
      · rw [if_pos h1, if_neg h2] at hval
        simp at hval
    · rw [if_neg h1] at hval
      simp at hval

/-- C2 counterexample: a response whose single relation has
`confidence = 1.5` (outside `[0, 1]`) and an allowed relation label is
*kept* by the validation, so out-of-range confidences are not rejected. -/
theorem C2_out_of_range_confidence_kept :
    parse_response ["相关".toList]
      (JValue.arr [JValue.obj
        [("source".toList, JValue.obj
            [("text".toList, JValue.str "IL-6".toList),
             ("type".toList, JValue.str "Gene".toList)]),
         ("target".toList, JValue.obj
            [("text".toList, JValue.str "矽肺".toList),
             ("type".toList, JValue.str "Disease".toList)]),
         ("relation".toList, JValue.str "相关".toList),
         ("confidence".toList, JValue.num (mkRat 3 2))]]) =
      [JValue.obj
        [("source".toList, JValue.obj
            [("text".toList, JValue.str "IL-6".toList),
             ("type".toList, JValue.str "Gene".toList)]),
         ("target".toList, JValue.obj
            [("text".toList, JValue.str "矽肺".toList),
             ("type".toList, JValue.str "Disease".toList)]),
         ("relation".toList, JValue.str "相关".toList),
         ("confidence".toList, JValue.num (mkRat 3 2))]] ∧
    ¬ ((mkRat 3 2 : Rat) ≤ 1) :=
  ⟨rfl, by decide⟩

/-- Witness for C2 (amended) at the counterexample's kept relation. -/
theorem C2_parse_response_validation_witness :
    ((JValue.obj
        [("source".toList, JValue.obj
            [("text".toList, JValue.str "IL-6".toList),
             ("type".toList, JValue.str "Gene".toList)]),
         ("target".toList, JValue.obj
            [("text".toList, JValue.str "矽肺".toList),
             ("type".toList, JValue.str "Disease".toList)]),
         ("relation".toList, JValue.str "相关".toList),
         ("confidence".toList, JValue.num (mkRat 3 2))]) ∈
      parse_response ["相关".toList] (JValue.arr [JValue.obj
        [("source".toList, JValue.obj
            [("text".toList, JValue.str "IL-6".toList),
             ("type".toList, JValue.str "Gene".toList)]),
         ("target".toList, JValue.obj
            [("text".toList, JValue.str "矽肺".toList),
             ("type".toList, JValue.str "Disease".toList)]),
         ("relation".toList, JValue.str "相关".toList),
         ("confidence".toList, JValue.num (mkRat 3 2))]])) ∧
    (∃ kvs kvs', JValue.obj kvs ∈ relationCandidates (JValue.arr [JValue.obj
        [("source".toList, JValue.obj
            [("text".toList, JValue.str "IL-6".toList),
             ("type".toList, JValue.str "Gene".toList)]),
         ("target".toList, JValue.obj
            [("text".toList, JValue.str "矽肺".toList),
             ("type".toList, JValue.str "Disease".toList)]),
         ("relation".toList, JValue.str "相关".toList),
         ("confidence".toList, JValue.num (mkRat 3 2))]]) ∧
      kvs' = (if (jLookup kvs "confidence".toList).isSome then kvs
              else kvs ++ [("confidence".toList, JValue.num (mkRat 1 2))]) ∧
      (JValue.obj
        [("source".toList, JValue.obj
            [("text".toList, JValue.str "IL-6".toList),
             ("type".toList, JValue.str "Gene".toList)]),
         ("target".toList, JValue.obj
            [("text".toList, JValue.str "矽肺".toList),
             ("type".toList, JValue.str "Disease".toList)]),
         ("relation".toList, JValue.str "相关".toList),
         ("confidence".toList, JValue.num (mkRat 3 2))]) = JValue.obj kvs' ∧
      (∃ skvs, jLookup kvs "source".toList = some (JValue.obj skvs) ∧
        (jLookup skvs "text".toList).isSome = true ∧
        (jLookup skvs "type".toList).isSome = true) ∧
      (∃ tkvs, jLookup kvs "target".toList = some (JValue.obj tkvs) ∧
        (jLookup tkvs "text".toList).isSome = true ∧
        (jLookup tkvs "type".toList).isSome = true) ∧
      (∃ s, jLookup kvs' "relation".toList = some (JValue.str s) ∧ s ∈ ["相关".toList]) ∧
      ((jLookup kvs "confidence".toList).isSome = true →
        jLookup kvs' "confidence".toList = jLookup kvs "confidence".toList) ∧
      (jLookup kvs "confidence".toList = none →
        jLookup kvs' "confidence".toList = some (JValue.num (mkRat 1 2)))) :=
  ⟨by exact List.mem_cons_self _ _,
   C2_parse_response_validation ["相关".toList]
     (JValue.arr [JValue.obj
        [("source".toList, JValue.obj
            [("text".toList, JValue.str "IL-6".toList),
             ("type".toList, JValue.str "Gene".toList)]),
         ("target".toList, JValue.obj
            [("text".toList, JValue.str "矽肺".toList),
             ("type".toList, JValue.str "Disease".toList)]),
         ("relation".toList, JValue.str "相关".toList),
         ("confidence".toList, JValue.num (mkRat 3 2))]])
     (JValue.obj
        [("source".toList, JValue.obj
            [("text".toList, JValue.str "IL-6".toList),
             ("type".toList, JValue.str "Gene".toList)]),
         ("target".toList, JValue.obj
            [("text".toList, JValue.str "矽肺".toList),
             ("type".toList, JValue.str "Disease".toList)]),
         ("relation".toList, JValue.str "相关".toList),
         ("confidence".toList, JValue.num (mkRat 3 2))])
     (by exact List.mem_cons_self _ _)⟩

/-! ## LLM-client degradation (C8) and CLI exit behaviour (C9) -/

theorem tryModelAttempts_none (outcomes : List Outcome)
    (h : ∀ o ∈ outcomes, ∀ c, o ≠ Outcome.ok c) : tryModelAttempts outcomes = none := by
  induction outcomes with
  | nil => rfl
  | cons o rest ih =>
    cases o with
    | ok c => exact absurd rfl (h _ (List.mem_cons_self _ _) c)
    | notFound => rfl
    | rateLimited => exact ih (fun o ho c => h o (List.mem_cons_of_mem _ ho) c)
    | httpError code => exact ih (fun o ho c => h o (List.mem_cons_of_mem _ ho) c)
    | exc => exact ih (fun o ho c => h o (List.mem_cons_of_mem _ ho) c)

/-- C8: when every (model, attempt) outcome is a failure — rate limits,
404s, other HTTP errors or raised exceptions — `generate_completion`
returns the `{"choices": [{"message": {"content": ""}}]}` value (a value,
not an exception: every failure path in the source is inside the
`try/except` of the retry loop, which this total model reflects), so the
message content handed to callers is the empty string. -/
theorem C8_total_failure_returns_empty_content (primary : Str)
    (oracle : Str → Nat → Outcome)
    (h : ∀ m a c, oracle m a ≠ Outcome.ok c) :
    generate_completion primary oracle = empty_completion ∧
    (generate_completion primary oracle).choices.map (fun c => c.message.content) = [[]] := by
  have hmain : ∀ models : List Str, tryModels oracle models = empty_completion := by
    intro models
    induction models with
    | nil => rfl
    | cons m rest ih =>
      have hnone : tryModelAttempts (attemptsFor oracle m) = none := by
        apply tryModelAttempts_none
        intro o ho c
        unfold attemptsFor at ho
        rcases List.mem_map.mp ho with ⟨i, _, hoe⟩
        rw [← hoe]
        exact h m (i + 1) c
      have hstep : tryModels oracle (m :: rest) = tryModels oracle rest := by
        show (match tryModelAttempts (attemptsFor oracle m) with
              | some r => r
              | none => tryModels oracle rest) = tryModels oracle rest
        rw [hnone]
      rw [hstep, ih]
  exact ⟨hmain _, by rw [show generate_completion primary oracle = empty_completion from hmain _]; rfl⟩

/-- Witness for C8: the all-exceptions oracle yields the empty-content
result for the configured primary model. -/
theorem C8_total_failure_returns_empty_content_witness :
    (∀ m a c, (fun _ _ => Outcome.exc : Str → Nat → Outcome) m a ≠ Outcome.ok c) ∧
    generate_completion "moonshot-v1-8k".toList (fun _ _ => Outcome.exc) = empty_completion :=
  ⟨fun _ _ _ hx => Outcome.noConfusion hx,
   (C8_total_failure_returns_empty_content "moonshot-v1-8k".toList (fun _ _ => Outcome.exc)
     (fun _ _ _ hx => Outcome.noConfusion hx)).1⟩

/-- C9 (amended): both CLI `main`s terminate with exit status 0 on *every*
path — the "no input files found" branch prints/logs an error message and
plain-returns, so the interpreter still exits 0; only the presence of the
error message distinguishes the failure. -/
theorem C9_cli_exit_status (input_files json_files : List Str) :
    (batch_main input_files).1 = 0 ∧ (merge_main json_files).1 = 0 ∧
    ((batch_main input_files).2 = true ↔ input_files = []) ∧
    ((merge_main json_files).2 = true ↔ json_files = []) := by
  unfold batch_main merge_main
  refine ⟨?_, ?_, ?_, ?_⟩
  · split <;> rfl
  · split <;> rfl
  · by_cases h : input_files.isEmpty = true
    · simp [h, List.isEmpty_iff.mp h]
    · simp only [if_neg h]
      constructor
      · intro hx
        cases hx
      · intro hx
        exact absurd (by simp [hx]) h
  · by_cases h : json_files.isEmpty = true
    · simp [h, List.isEmpty_iff.mp h]
    · simp only [if_neg h]
      constructor
      · intro hx
        cases hx
      · intro hx
        exact absurd (by simp [hx]) h

/-- C9 counterexample: with no input files, both `main`s emit the error
message yet the process exit status is 0, not non-zero as claimed. -/
theorem C9_zero_exit_on_no_input_counterexample :
    batch_main [] = (0, true) ∧ merge_main [] = (0, true) := ⟨rfl, rfl⟩
